import Mathlib

/-!
Verification of the numerical core of `linear-algebra-pro-server`
(dense matrix library, power iteration, SVD, PCA, QR, losses and the
gradient-descent optimizer), as a shallow embedding in Lean 4.

Modelling conventions, used throughout:

* JavaScript double-precision numbers are modelled as exact rationals
  (`ℚ`).  Calls to `Math.sqrt` and `Math.log` are abstracted as explicit
  function parameters (`sqrtFn`, `logFn`); every theorem below is proved
  for all such functions.  Calls to `Math.random` are abstracted as
  explicit seed parameters.
* Thrown JS exceptions are modelled with `Except Err`; each `throw`
  site of the source is mapped to the corresponding error kind of the
  spec's taxonomy.
* A `Matrix` carries its `data` (row-major list of rows); `rows` and
  `cols` are derived exactly as the source constructor derives them
  (`data.length` and `data[0].length`).  Reads of the private `_data`
  array are modelled with the total `entry` (out-of-range reads cannot
  occur in the source because the constructor validates shapes); reads
  through the public checked `get` are modelled with the `Except`-valued
  `Matrix.get`.
-/

namespace LinAlgebraPro

/-- Error kinds of the spec's error taxonomy (§7), plus the two kinds the
source raises that the taxonomy does not name (`zeroVector` for
"Cannot normalize zero vector", `invalidSize` for bad factory sizes,
`notDecomposed` for "decomposition not performed yet"). -/
inductive Err where
  | invalidShape
  | indexOutOfBounds
  | invalidValue
  | invalidScalar
  | shapeMismatch
  | divisionByZero
  | notSquare
  | notFitted
  | featureMismatch
  | insufficientSamples
  | unknownMethod
  | zeroVector
  | invalidSize
  | notDecomposed
  deriving DecidableEq, Repr

/-- A dense matrix: the row-major `_data` array of `matrix.ts`. -/
structure Matrix where
  data : List (List ℚ)
  deriving DecidableEq, Repr

namespace Matrix

/-- `this._rows = data.length`. -/
def rows (A : Matrix) : ℕ := A.data.length

/-- `this._cols = data[0].length`. -/
def cols (A : Matrix) : ℕ := (A.data.headD []).length

/-- Direct read of `_data[i][j]` (total; in the source every such read is
in range because construction validates rectangularity). -/
def entry (A : Matrix) (i j : ℕ) : ℚ := (A.data.getD i []).getD j 0

/-- The invariant the source constructor establishes: at least one row,
at least one column, and all rows of identical length. -/
def WF (A : Matrix) : Prop :=
  A.data ≠ [] ∧ 0 < A.cols ∧ ∀ r ∈ A.data, r.length = A.cols

instance (A : Matrix) : Decidable A.WF := by
  unfold WF; infer_instance

/-- `isSquare`. -/
def isSquare (A : Matrix) : Bool := A.rows == A.cols

/-- Public `get(i, j)`: throws `IndexOutOfBounds` outside
`[0, rows) × [0, cols)` (the `i < 0` / `j < 0` cases of the source cannot
arise with `ℕ` indices). -/
def get (A : Matrix) (i j : ℕ) : Except Err ℚ :=
  if i < A.rows ∧ j < A.cols then .ok (A.entry i j) else .error .indexOutOfBounds

/-- Public `set(i, j, value)`: bounds check as in `get`; the source's
`isNaN(value)` check always passes for a rational value. -/
def set (A : Matrix) (i j : ℕ) (v : ℚ) : Except Err Matrix :=
  if i < A.rows ∧ j < A.cols then
    .ok ⟨A.data.set i ((A.data.getD i []).set j v)⟩
  else .error .indexOutOfBounds

/-- Constructor validation of `new Matrix(data)` for rational data, in
source order: non-empty data, non-empty first row, all rows of the first
row's length.  The per-element `isNaN` check always passes for `ℚ`
(see `matrixNewJs` below for the faithful treatment of non-finite
values).  On success the constructor deep-copies `data`. -/
def matrixNew (d : List (List ℚ)) : Except Err Matrix :=
  if d.isEmpty then .error .invalidShape
  else if (d.headD []).length = 0 then .error .invalidShape
  else if d.all (fun r => r.length == (d.headD []).length) then .ok ⟨d⟩
  else .error .invalidShape

/-- `clone()`: `new Matrix(this._data)` — revalidates and deep-copies;
for data produced by the library the validation passes, and the value is
the same `data`. -/
def clone (A : Matrix) : Matrix := ⟨A.data⟩

/-- `equals(other, epsilon)`: shape-equal and entrywise within `epsilon`. -/
def equalsEps (A B : Matrix) (eps : ℚ) : Bool :=
  A.rows == B.rows && A.cols == B.cols &&
    (List.range A.rows).all (fun i =>
      (List.range A.cols).all (fun j => |A.entry i j - B.entry i j| ≤ eps))

/-- Row-major result data of `add` (the source's nested loops over
`[0, rows) × [0, cols)` reading `_data` directly). -/
def addData (A B : Matrix) : List (List ℚ) :=
  (List.range A.rows).map fun i =>
    (List.range A.cols).map fun j => A.entry i j + B.entry i j

/-- `add(other)`: `ShapeMismatch` unless shapes are identical; otherwise a
new matrix of entrywise sums.  The result array is rectangular and
non-empty whenever the receiver is well-formed, so the constructor's
revalidation passes and is elided. -/
def add (A B : Matrix) : Except Err Matrix :=
  if A.rows = B.rows ∧ A.cols = B.cols then .ok ⟨addData A B⟩
  else .error .shapeMismatch

/-- Result data of `subtract`. -/
def subData (A B : Matrix) : List (List ℚ) :=
  (List.range A.rows).map fun i =>
    (List.range A.cols).map fun j => A.entry i j - B.entry i j

/-- `subtract(other)`. -/
def subtract (A B : Matrix) : Except Err Matrix :=
  if A.rows = B.rows ∧ A.cols = B.cols then .ok ⟨subData A B⟩
  else .error .shapeMismatch

/-- Result data of `multiplyScalar` / `divideScalar`. -/
def scaleData (A : Matrix) (c : ℚ) : List (List ℚ) :=
  (List.range A.rows).map fun i =>
    (List.range A.cols).map fun j => A.entry i j * c

/-- `multiplyScalar(scalar)`: the source's `isNaN(scalar)` check always
passes for a rational scalar. -/
def multiplyScalar (A : Matrix) (c : ℚ) : Except Err Matrix :=
  .ok ⟨scaleData A c⟩

/-- Entry data of `divideScalar` (entrywise division). -/
def divData (A : Matrix) (c : ℚ) : List (List ℚ) :=
  (List.range A.rows).map fun i =>
    (List.range A.cols).map fun j => A.entry i j / c

/-- `divideScalar(scalar)`: `DivisionByZero` for a zero divisor; the
`isNaN` check always passes for a rational scalar. -/
def divideScalar (A : Matrix) (c : ℚ) : Except Err Matrix :=
  if c = 0 then .error .divisionByZero else .ok ⟨divData A c⟩

/-- Result data of `multiply` (the standard triple loop:
`result[i][j] = Σ_{k < this.cols} this[i][k] * other[k][j]`). -/
def mulData (A B : Matrix) : List (List ℚ) :=
  (List.range A.rows).map fun i =>
    (List.range B.cols).map fun j =>
      ((List.range A.cols).map fun k => A.entry i k * B.entry k j).sum

/-- `multiply(other)`: `ShapeMismatch` unless `this.cols == other.rows`. -/
def multiply (A B : Matrix) : Except Err Matrix :=
  if A.cols = B.rows then .ok ⟨mulData A B⟩ else .error .shapeMismatch

/-- Result data of `transpose`. -/
def transposeData (A : Matrix) : List (List ℚ) :=
  (List.range A.cols).map fun j =>
    (List.range A.rows).map fun i => A.entry i j

/-- `transpose()`: total (the source method performs no checks). -/
def transpose (A : Matrix) : Matrix := ⟨transposeData A⟩

/-- `trace()`: `NotSquare` on non-square input, else the diagonal sum. -/
def trace (A : Matrix) : Except Err ℚ :=
  if A.isSquare then .ok ((List.range A.rows).map fun i => A.entry i i).sum
  else .error .notSquare

/-- Entry of a raw 2D array (used by the private determinant helpers,
which operate on `number[][]` directly). -/
def entryOf (d : List (List ℚ)) (i j : ℕ) : ℚ := (d.getD i []).getD j 0

/-- `_getCofactor(data, rowToRemove, colToRemove)`: drops the given row
and column; both index scans run over `[0, data.length)` as in the
source. -/
def cofactorData (d : List (List ℚ)) (rowR colR : ℕ) : List (List ℚ) :=
  ((List.range d.length).filter fun i => i != rowR).map fun i =>
    ((List.range d.length).filter fun j => j != colR).map fun j => entryOf d i j

/-- `_calculateDeterminant(data)`: recursive cofactor expansion along the
first row, 1×1 and 2×2 base cases.  Structured as fuel recursion with
`fuel = data.length` so that the definition reduces computationally; the
cofactor of an `n×n` array has `n-1` rows, so the fuel is always
sufficient (see `determinantData`). -/
def detFuel : ℕ → List (List ℚ) → ℚ
  | 0, _ => 0
  | fuel + 1, d =>
    if d.length = 1 then entryOf d 0 0
    else if d.length = 2 then
      entryOf d 0 0 * entryOf d 1 1 - entryOf d 0 1 * entryOf d 1 0
    else
      ((List.range d.length).map fun j =>
        (if j % 2 = 0 then (1 : ℚ) else -1) * entryOf d 0 j *
          detFuel fuel (cofactorData d 0 j)).sum

/-- Determinant of a raw data array (enough fuel for the recursion). -/
def determinantData (d : List (List ℚ)) : ℚ := detFuel d.length d

/-- `determinant()`: `NotSquare` on non-square input, else cofactor
expansion. -/
def determinant (A : Matrix) : Except Err ℚ :=
  if A.isSquare then .ok (determinantData A.data) else .error .notSquare

/-- Data of `Matrix.identity(size)`. -/
def identityData (n : ℕ) : List (List ℚ) :=
  (List.range n).map fun i =>
    (List.range n).map fun j => if i = j then 1 else 0

/-- `Matrix.identity(size)`: positive-integer size check (an `ℕ` argument
is always an integer), then the 0/1 data. -/
def identity (n : ℕ) : Except Err Matrix :=
  if n = 0 then .error .invalidSize else .ok ⟨identityData n⟩

/-- Data of `Matrix.zeros(rows, cols)`. -/
def zerosData (r c : ℕ) : List (List ℚ) :=
  (List.range r).map fun _ => (List.range c).map fun _ => (0 : ℚ)

/-- `Matrix.zeros(rows, cols)` with its positive-size check. -/
def zeros (r c : ℕ) : Except Err Matrix :=
  if r = 0 ∨ c = 0 then .error .invalidSize else .ok ⟨zerosData r c⟩

/-- Modelled from the spec: `Matrix.getRow(i)` is called by the QR, SVD
and PCA engines (`A.getRow(i)`) but the staged `matrix.ts` does not
contain its definition; it returns a copy of row `i`, with the usual
bounds check. -/
def getRow (A : Matrix) (i : ℕ) : Except Err (List ℚ) :=
  if i < A.rows then .ok (A.data.getD i []) else .error .indexOutOfBounds

end Matrix

/-! ### The constructor's treatment of non-finite values (claim C3)

To settle what the constructor does with `NaN` and `±Infinity` the input
elements are modelled as JavaScript numbers: either a finite rational or
one of the three non-finite values. -/

/-- A JavaScript `number`: finite, `Infinity`, `-Infinity`, or `NaN`. -/
inductive JsNumber where
  | num (q : ℚ)
  | posInf
  | negInf
  | nan
  deriving DecidableEq, Repr

/-- `isNaN(x)` for a JS number. -/
def JsNumber.isNaN : JsNumber → Bool
  | .nan => true
  | _ => false

/-- `Number.isFinite(x)` for a JS number. -/
def JsNumber.isFinite : JsNumber → Bool
  | .num _ => true
  | _ => false

/-- The `Matrix` constructor's validation on raw JS input, exactly in
source order: (1) empty input → error; (2) `data[0].length === 0` →
error; (3) some later row of a different length → error; (4) some
element with `typeof ≠ 'number' || isNaN(element)` → error (every
element of a `number[][]` has `typeof === 'number'`, so only the
`isNaN` test can fire).  On success the data is deep-copied. -/
def matrixNewJs (d : List (List JsNumber)) : Except Err (List (List JsNumber)) :=
  if d.isEmpty then .error .invalidShape
  else if (d.headD []).length = 0 then .error .invalidShape
  else if ¬ d.all (fun r => r.length == (d.headD []).length) then .error .invalidShape
  else if d.any (fun r => r.any JsNumber.isNaN) then .error .invalidValue
  else .ok d

/-! ### General helper lemmas -/

theorem getD_map_range {α : Type} (f : ℕ → α) (x : α) {i n : ℕ} (h : i < n) :
    ((List.range n).map f).getD i x = f i := by
  rw [List.getD_eq_getElem?_getD, List.getElem?_map, List.getElem?_range h]
  rfl

theorem getD_map_range_ge {α : Type} (f : ℕ → α) (x : α) {i n : ℕ} (h : n ≤ i) :
    ((List.range n).map f).getD i x = x := by
  have hnone : ((List.range n).map f)[i]? = none := by
    rw [List.getElem?_eq_none]
    simpa using h
  rw [List.getD_eq_getElem?_getD, hnone]
  rfl

theorem filter_bne_zero_range (n : ℕ) :
    ((List.range (n + 1)).filter fun i => i != 0) = (List.range n).map (· + 1) := by
  rw [List.range_succ_eq_map]
  simp [List.filter_map, Function.comp_def]

/-- Characterisation of a successful monadic bind on `Except`. -/
theorem except_bind_ok {α β : Type} {x : Except Err α} {f : α → Except Err β} {b : β} :
    (x >>= f) = .ok b ↔ ∃ a, x = .ok a ∧ f a = .ok b := by
  cases x <;> simp [Bind.bind, Except.bind]

theorem except_pure_ok {α : Type} {a b : α} :
    (pure a : Except Err α) = .ok b ↔ a = b := by
  simp [pure, Except.pure]

theorem except_ok_bind {α β : Type} (a : α) (f : α → Except Err β) :
    (Except.ok a >>= f : Except Err β) = f a := rfl

theorem except_error_bind {α β : Type} (e : Err) (f : α → Except Err β) :
    ((Except.error e : Except Err α) >>= f) = .error e := rfl

theorem except_map_ok {α β : Type} {x : Except Err α} {f : α → β} {b : β} :
    x.map f = .ok b ↔ ∃ a, x = .ok a ∧ f a = b := by
  cases x <;> simp [Except.map, eq_comm]

namespace Matrix

theorem entry_eq_entryOf (A : Matrix) (i j : ℕ) : A.entry i j = entryOf A.data i j := rfl

theorem identityData_length (n : ℕ) : (identityData n).length = n := by
  simp [identityData]

theorem entryOf_identity {n i j : ℕ} (hi : i < n) (hj : j < n) :
    entryOf (identityData n) i j = if i = j then 1 else 0 := by
  rw [entryOf, identityData, getD_map_range _ _ hi, getD_map_range _ _ hj]

theorem entryOf_identity_zero {n j : ℕ} (hn : 0 < n) (hj : j < n) (hj0 : j ≠ 0) :
    entryOf (identityData n) 0 j = 0 := by
  rw [entryOf_identity hn hj, if_neg (fun h => hj0 h.symm)]

/-- The 0,0-cofactor of the `(n+1) × (n+1)` identity data is the `n × n`
identity data. -/
theorem cofactorData_identity (n : ℕ) :
    cofactorData (identityData (n + 1)) 0 0 = identityData n := by
  unfold cofactorData
  rw [identityData_length, filter_bne_zero_range]
  conv_rhs => rw [identityData]
  simp only [List.map_map]
  refine List.map_congr_left (fun i hi => ?_)
  rw [List.mem_range] at hi
  simp only [Function.comp]
  refine List.map_congr_left (fun j hj => ?_)
  rw [List.mem_range] at hj
  simp only [Function.comp_apply]
  rw [entryOf_identity (show i + 1 < n + 1 by omega) (show j + 1 < n + 1 by omega)]
  simp [Nat.succ_inj]

/-- Cofactor expansion of the identity: the determinant is 1 for every
positive size. -/
theorem detFuel_identity : ∀ n, 0 < n → detFuel n (identityData n) = 1 := by
  intro n
  induction n using Nat.strong_induction_on with
  | _ n ih =>
    match n with
    | 0 => intro h; exact absurd h (lt_irrefl 0)
    | 1 => intro _; simp [detFuel, identityData, entryOf]
    | 2 => intro _; norm_num [detFuel, identityData, entryOf, List.range_succ]
    | (m + 3) =>
      intro _
      have hlen : (identityData (m + 3)).length = m + 3 := identityData_length _
      rw [detFuel, hlen]
      rw [if_neg (by omega), if_neg (by omega)]
      have hsplit : List.range (m + 3) = 0 :: (List.range (m + 2)).map (· + 1) :=
        List.range_succ_eq_map (m + 2)
      rw [hsplit, List.map_cons, List.sum_cons, List.map_map]
      have hzero :
          ((List.range (m + 2)).map
            ((fun j => (if j % 2 = 0 then (1 : ℚ) else -1) * entryOf (identityData (m + 3)) 0 j *
              detFuel (m + 2) (cofactorData (identityData (m + 3)) 0 j)) ∘ (· + 1))).sum = 0 := by
        refine List.sum_eq_zero (fun x hx => ?_)
        rw [List.mem_map] at hx
        obtain ⟨j, hj, rfl⟩ := hx
        rw [List.mem_range] at hj
        have h0 : entryOf (identityData (m + 3)) 0 (j + 1) = 0 :=
          entryOf_identity_zero (by omega) (by omega) (by omega)
        simp [Function.comp, h0]
      rw [hzero, add_zero]
      have hc : cofactorData (identityData (m + 3)) 0 0 = identityData (m + 2) :=
        cofactorData_identity (m + 2)
      rw [hc]
      have h00 : entryOf (identityData (m + 3)) 0 0 = 1 := by
        rw [entryOf_identity (by omega) (by omega)]; simp
      rw [h00, ih (m + 2) (by omega) (by omega)]
      norm_num

theorem identityData_cols (n : ℕ) (h : 0 < n) :
    (Matrix.mk (identityData n)).cols = n := by
  obtain ⟨m, rfl⟩ := Nat.exists_eq_add_of_lt h
  simp only [cols, identityData, List.range_succ_eq_map]
  simp

end Matrix

/-! ### Claim C7: determinant and trace of the identity matrix -/

/-- C7: for every positive `n`, `Matrix.identity(n)` succeeds,
`determinant()` (recursive cofactor expansion) returns 1, and `trace()`
returns `n`. -/
theorem identity_determinant_trace (n : ℕ) (h : 0 < n) :
    ∃ M, Matrix.identity n = .ok M ∧
      M.determinant = .ok 1 ∧ M.trace = .ok (n : ℚ) := by
  refine ⟨⟨Matrix.identityData n⟩, ?_, ?_, ?_⟩
  · rw [Matrix.identity, if_neg (by omega)]
  · rw [Matrix.determinant, if_pos]
    · rw [Matrix.determinantData]
      have : (Matrix.mk (Matrix.identityData n)).data.length = n := Matrix.identityData_length n
      rw [this, Matrix.detFuel_identity n h]
    · simp [Matrix.isSquare, Matrix.rows, Matrix.identityData_length,
        Matrix.identityData_cols n h]
  · rw [Matrix.trace, if_pos]
    · have hrows : (Matrix.mk (Matrix.identityData n)).rows = n := Matrix.identityData_length n
      rw [hrows]
      have hmap : (List.range n).map
          (fun i => (Matrix.mk (Matrix.identityData n)).entry i i) =
          (List.range n).map (fun _ => (1 : ℚ)) := by
        refine List.map_congr_left (fun i hi => ?_)
        rw [List.mem_range] at hi
        rw [Matrix.entry_eq_entryOf, Matrix.entryOf_identity hi hi, if_pos rfl]
      rw [hmap, List.map_const', List.sum_replicate, List.length_range, nsmul_eq_mul, mul_one]
    · simp [Matrix.isSquare, Matrix.rows, Matrix.identityData_length,
        Matrix.identityData_cols n h]

/-- Witness for C7 at `n = 3`. -/
theorem identity_determinant_trace_witness :
    0 < 3 ∧ ∃ M, Matrix.identity 3 = .ok M ∧
      M.determinant = .ok 1 ∧ M.trace = .ok (3 : ℚ) :=
  ⟨by decide, identity_determinant_trace 3 (by decide)⟩

/-! ### Claim C3: the constructor and non-finite entries -/

/-- C3 counterexample: `new Matrix([[Infinity]])` succeeds (the
constructor's element check is `isNaN`, and `isNaN(Infinity)` is false),
so a successfully constructed Matrix can hold a non-finite entry. -/
theorem matrixNewJs_accepts_infinity :
    matrixNewJs [[JsNumber.posInf]] = .ok [[JsNumber.posInf]] ∧
      JsNumber.posInf.isFinite = false := by
  constructor
  · simp [matrixNewJs, JsNumber.isNaN]
  · rfl

/-- C3 amended: construction succeeds exactly when the input is
non-empty, has a non-empty first row, is rectangular, and contains no
`NaN` entry; `±Infinity` entries are accepted, so constructed matrices
are guaranteed `NaN`-free but not Infinity-free. -/
theorem matrixNewJs_ok_iff (d : List (List JsNumber)) :
    (∃ v, matrixNewJs d = .ok v) ↔
      d ≠ [] ∧ (d.headD []).length ≠ 0 ∧
        (∀ r ∈ d, r.length = (d.headD []).length) ∧
        (∀ r ∈ d, ∀ x ∈ r, x.isNaN = false) := by
  unfold matrixNewJs
  by_cases h1 : d.isEmpty
  · rw [if_pos h1]
    rw [List.isEmpty_iff] at h1
    subst h1
    constructor
    · rintro ⟨v, hv⟩; cases hv
    · rintro ⟨hne, -, -, -⟩; exact absurd rfl hne
  · rw [if_neg h1]
    rw [List.isEmpty_iff] at h1
    by_cases h2 : (d.headD []).length = 0
    · rw [if_pos h2]
      constructor
      · rintro ⟨v, hv⟩; cases hv
      · rintro ⟨-, hne, -, -⟩; exact absurd h2 hne
    · rw [if_neg h2]
      by_cases h3 : d.all (fun r => r.length == (d.headD []).length)
      · rw [if_neg (by rw [h3]; exact fun h => h rfl)]
        by_cases h4 : d.any (fun r => r.any JsNumber.isNaN)
        · rw [if_pos h4]
          rw [List.any_eq_true] at h4
          obtain ⟨r, hr, hx⟩ := h4
          rw [List.any_eq_true] at hx
          obtain ⟨x, hxr, hnan⟩ := hx
          constructor
          · rintro ⟨v, hv⟩; cases hv
          · rintro ⟨-, -, -, hno⟩
            rw [hno r hr x hxr] at hnan
            cases hnan
        · rw [if_neg h4]
          rw [List.all_eq_true] at h3
          refine ⟨fun _ => ⟨h1, h2, ?_, ?_⟩, fun _ => ⟨d, rfl⟩⟩
          · intro r hr
            exact beq_iff_eq.mp (h3 r hr)
          · intro r hr x hx
            by_contra hfx
            refine h4 ?_
            rw [List.any_eq_true]
            refine ⟨r, hr, ?_⟩
            rw [List.any_eq_true]
            exact ⟨x, hx, by simpa using hfx⟩
      · rw [if_pos (by simpa using h3)]
        constructor
        · rintro ⟨v, hv⟩; cases hv
        · rintro ⟨-, -, hrect, -⟩
          refine absurd ?_ h3
          rw [List.all_eq_true]
          intro r hr
          exact beq_iff_eq.mpr (hrect r hr)

/-! ### Claim C8: value semantics and frame effects

Mutation is made observable with an explicit object store: a heap of
matrix data blocks indexed by references.  Every transforming operation
reads its operands from the store, computes with the pure operation
embedded above, and allocates the result as a fresh block (`new
Matrix(...)`); `set` writes the receiver's block in place
(`this._data[i][j] = value`). -/

/-- The heap: each cell holds one matrix object's `_data`. -/
abbrev Store : Type := List (List (List ℚ))

/-- Dereference: the matrix currently stored at `r` (a dangling
reference reads as an empty block; it cannot arise in the source). -/
def Store.read (s : Store) (r : ℕ) : Matrix := ⟨s.getD r []⟩

/-- Allocation of a result block (`new Matrix(result)`): the new object
lives at a fresh reference at the end of the store. -/
def Store.alloc (s : Store) (d : List (List ℚ)) : Store × ℕ :=
  (s ++ [d], s.length)

/-- `a.add(b)` on the store. -/
def Store.addS (s : Store) (r1 r2 : ℕ) : Except Err (Store × ℕ) := do
  let C ← (s.read r1).add (s.read r2)
  pure (s.alloc C.data)

/-- `a.subtract(b)` on the store. -/
def Store.subS (s : Store) (r1 r2 : ℕ) : Except Err (Store × ℕ) := do
  let C ← (s.read r1).subtract (s.read r2)
  pure (s.alloc C.data)

/-- `a.multiply(b)` on the store. -/
def Store.mulS (s : Store) (r1 r2 : ℕ) : Except Err (Store × ℕ) := do
  let C ← (s.read r1).multiply (s.read r2)
  pure (s.alloc C.data)

/-- `a.multiplyScalar(c)` on the store. -/
def Store.mulScalarS (s : Store) (r1 : ℕ) (c : ℚ) : Except Err (Store × ℕ) := do
  let C ← (s.read r1).multiplyScalar c
  pure (s.alloc C.data)

/-- `a.divideScalar(c)` on the store. -/
def Store.divScalarS (s : Store) (r1 : ℕ) (c : ℚ) : Except Err (Store × ℕ) := do
  let C ← (s.read r1).divideScalar c
  pure (s.alloc C.data)

/-- `a.transpose()` on the store. -/
def Store.transposeS (s : Store) (r1 : ℕ) : Store × ℕ :=
  s.alloc ((s.read r1).transpose).data

/-- `a.clone()` on the store. -/
def Store.cloneS (s : Store) (r1 : ℕ) : Store × ℕ :=
  s.alloc ((s.read r1).clone).data

/-- `a.set(i, j, v)` on the store: the only operation that writes an
existing block. -/
def Store.setS (s : Store) (r1 i j : ℕ) (v : ℚ) : Except Err Store := do
  let M ← (s.read r1).set i j v
  pure (s.set r1 M.data)

theorem store_alloc_preserves (s : Store) (d : List (List ℚ)) (r : ℕ)
    (h : r < s.length) : (s.alloc d).1.read r = s.read r := by
  unfold Store.alloc Store.read
  rw [List.getD_append s [d] [] r h]

/-- C8: every transforming operation (`add`, `subtract`, `multiply`,
`multiplyScalar`, `divideScalar`, `transpose`, `clone`) allocates its
result at a fresh reference and leaves every existing object — receiver
and arguments included — byte-for-byte unchanged; `set` rewrites exactly
the receiver's block (entry `(i, j)` of block `r1`) and leaves every
other object unchanged. -/
theorem matrix_ops_value_semantics (s : Store) (r1 r2 i j : ℕ) (c v : ℚ) :
    (∀ s' rN, s.addS r1 r2 = .ok (s', rN) →
      rN = s.length ∧ ∀ r < s.length, s'.read r = s.read r) ∧
    (∀ s' rN, s.subS r1 r2 = .ok (s', rN) →
      rN = s.length ∧ ∀ r < s.length, s'.read r = s.read r) ∧
    (∀ s' rN, s.mulS r1 r2 = .ok (s', rN) →
      rN = s.length ∧ ∀ r < s.length, s'.read r = s.read r) ∧
    (∀ s' rN, s.mulScalarS r1 c = .ok (s', rN) →
      rN = s.length ∧ ∀ r < s.length, s'.read r = s.read r) ∧
    (∀ s' rN, s.divScalarS r1 c = .ok (s', rN) →
      rN = s.length ∧ ∀ r < s.length, s'.read r = s.read r) ∧
    ((s.transposeS r1).2 = s.length ∧
      ∀ r < s.length, (s.transposeS r1).1.read r = s.read r) ∧
    ((s.cloneS r1).2 = s.length ∧
      ∀ r < s.length, (s.cloneS r1).1.read r = s.read r) ∧
    (∀ s', s.setS r1 i j v = .ok s' →
      (∀ r, r ≠ r1 → s'.read r = s.read r) ∧
      s'.read r1 = ⟨(s.getD r1 []).set i (((s.getD r1 []).getD i []).set j v)⟩) := by
  have halloc : ∀ (d : List (List ℚ)) (s' : Store) (rN : ℕ),
      s.alloc d = (s', rN) → rN = s.length ∧ ∀ r < s.length, s'.read r = s.read r := by
    rintro d s' rN h
    rw [Store.alloc, Prod.mk.injEq] at h
    obtain ⟨h1, h2⟩ := h
    refine ⟨h2.symm, fun r hr => ?_⟩
    rw [← h1]
    exact store_alloc_preserves s d r hr
  refine ⟨?_, ?_, ?_, ?_, ?_, ?_, ?_, ?_⟩
  · intro s' rN h
    rw [Store.addS, except_bind_ok] at h
    obtain ⟨C, -, hC⟩ := h
    exact halloc C.data s' rN (except_pure_ok.mp hC)
  · intro s' rN h
    rw [Store.subS, except_bind_ok] at h
    obtain ⟨C, -, hC⟩ := h
    exact halloc C.data s' rN (except_pure_ok.mp hC)
  · intro s' rN h
    rw [Store.mulS, except_bind_ok] at h
    obtain ⟨C, -, hC⟩ := h
    exact halloc C.data s' rN (except_pure_ok.mp hC)
  · intro s' rN h
    rw [Store.mulScalarS, except_bind_ok] at h
    obtain ⟨C, -, hC⟩ := h
    exact halloc C.data s' rN (except_pure_ok.mp hC)
  · intro s' rN h
    rw [Store.divScalarS, except_bind_ok] at h
    obtain ⟨C, -, hC⟩ := h
    exact halloc C.data s' rN (except_pure_ok.mp hC)
  · exact halloc _ _ _ rfl
  · exact halloc _ _ _ rfl
  · intro s' h
    rw [Store.setS, except_bind_ok] at h
    obtain ⟨M, hset, hs'⟩ := h
    rw [except_pure_ok] at hs'
    rw [Matrix.set] at hset
    split at hset
    case isFalse => cases hset
    case isTrue hij =>
      rw [Except.ok.injEq] at hset
      subst hset
      subst hs'
      have hr1 : r1 < s.length := by
        by_contra hge
        push_neg at hge
        have : (s.read r1).data = [] := by
          unfold Store.read
          rw [List.getD_eq_getElem?_getD, List.getElem?_eq_none (by simpa using hge)]
          rfl
        have h0 : (s.read r1).rows = 0 := by rw [Matrix.rows, this]; rfl
        rw [h0] at hij
        omega
      constructor
      · intro r hr
        unfold Store.read
        congr 1
        rw [List.getD_eq_getElem?_getD, List.getElem?_set_ne (fun h => hr h.symm),
          ← List.getD_eq_getElem?_getD]
      · unfold Store.read
        congr 1
        rw [List.getD_eq_getElem?_getD, List.getElem?_set_eq_of_lt _ hr1]
        rfl

/-- Witness for C8: a concrete two-object store on which every listed
operation succeeds; old objects are unchanged and `set` updates exactly
its target entry. -/
theorem matrix_ops_value_semantics_witness :
    (∀ s' rN, Store.addS [[[1, 2]], [[3, 4]]] 0 1 = .ok (s', rN) →
      rN = 2 ∧ ∀ r < 2, s'.read r = Store.read [[[1, 2]], [[3, 4]]] r) ∧
    (∀ s', Store.setS [[[1, 2]], [[3, 4]]] 0 0 1 (7 : ℚ) = .ok s' →
      (∀ r, r ≠ 0 → s'.read r = Store.read [[[1, 2]], [[3, 4]]] r) ∧
      s'.read 0 = ⟨[[1, 7]]⟩) := by
  have h := matrix_ops_value_semantics [[[1, 2]], [[3, 4]]] 0 1 0 1 (0 : ℚ) (7 : ℚ)
  refine ⟨h.1, fun s' hs' => ?_⟩
  have h8 := h.2.2.2.2.2.2.2 s' hs'
  exact ⟨h8.1, by rw [h8.2]; rfl⟩

/-! ### Loss functions (claim C2)

`MeanSquaredError` and `BinaryCrossEntropy` from the gradient-descent
module.  `Math.log` is abstracted as a `logFn` parameter; the clip bound
`1e-15` is the exact rational `bceEps`. -/

/-- The BCE numerical-stability clip bound `1e-15`. -/
def bceEps : ℚ := 1 / 10 ^ 15

/-- Helper lemma: `mapM` over `Except` succeeds pointwise. -/
theorem mapM_ok_of_forall {α β : Type} (f : α → Except Err β) (g : α → β) :
    ∀ (l : List α), (∀ a ∈ l, f a = .ok (g a)) → l.mapM f = .ok (l.map g) := by
  intro l
  induction l with
  | nil => intro _; rfl
  | cons a l ih =>
    intro h
    rw [List.mapM_cons, h a (by simp), ih (fun x hx => h x (by simp [hx]))]
    rfl

/-- Helper lemma: `mapM` over `Except` propagates the first error. -/
theorem mapM_error_first {α β : Type} {f : α → Except Err β} {e : Err} :
    ∀ (l₁ : List α) (a : α) (l₂ : List α),
      (∀ x ∈ l₁, ∃ b, f x = .ok b) → f a = .error e →
      ((l₁ ++ a :: l₂).mapM f : Except Err (List β)) = .error e := by
  intro l₁
  induction l₁ with
  | nil =>
    intro a l₂ _ ha
    rw [List.nil_append, List.mapM_cons, ha]
    rfl
  | cons x l ih =>
    intro a l₂ h ha
    rw [List.cons_append, List.mapM_cons]
    obtain ⟨b, hb⟩ := h x (by simp)
    rw [hb, ih a l₂ (fun y hy => h y (by simp [hy])) ha]
    rfl

/-- Helper lemma: `List.range n` splits at any `k < n`. -/
theorem range_split {k n : ℕ} (h : k < n) :
    ∃ l₂, List.range n = List.range k ++ k :: l₂ := by
  refine ⟨(List.range (n - (k + 1))).map (k + 1 + ·), ?_⟩
  have h1 : n = (k + 1) + (n - (k + 1)) := by omega
  conv_lhs => rw [h1]
  rw [List.range_add, List.range_succ, List.append_assoc]
  rfl

/-- `MeanSquaredError.loss`: explicit shape check, then the mean of
squared differences (all reads are in range after the check). -/
def mseLoss (yTrue yPred : Matrix) : Except Err ℚ :=
  if yTrue.rows = yPred.rows ∧ yTrue.cols = yPred.cols then
    .ok ((((List.range yTrue.rows).map fun i =>
      ((List.range yTrue.cols).map fun j =>
        (yTrue.entry i j - yPred.entry i j) * (yTrue.entry i j - yPred.entry i j)).sum).sum)
      / ((yTrue.rows : ℚ) * yTrue.cols))
  else .error .shapeMismatch

/-- `MeanSquaredError.gradient`: `yPred.subtract(yTrue)` (whose own shape
check raises `ShapeMismatch`), scaled by `2 / n`. -/
def mseGradient (yTrue yPred : Matrix) : Except Err Matrix := do
  let diff ← yPred.subtract yTrue
  diff.multiplyScalar (2 / ((yTrue.rows : ℚ) * yTrue.cols))

/-- The BCE clip: `Math.max(Math.min(p, 1 - 1e-15), 1e-15)`. -/
def bceClip (p : ℚ) : ℚ := max (min p (1 - bceEps)) bceEps

/-- `BinaryCrossEntropy.loss`: explicit shape check, clipped log loss. -/
def bceLoss (logFn : ℚ → ℚ) (yTrue yPred : Matrix) : Except Err ℚ :=
  if yTrue.rows = yPred.rows ∧ yTrue.cols = yPred.cols then
    .ok (-((((List.range yTrue.rows).map fun i =>
      ((List.range yTrue.cols).map fun j =>
        yTrue.entry i j * logFn (bceClip (yPred.entry i j)) +
          (1 - yTrue.entry i j) * logFn (1 - bceClip (yPred.entry i j))).sum).sum))
      / ((yTrue.rows : ℚ) * yTrue.cols))
  else .error .shapeMismatch

/-- One entry of the BCE gradient. -/
def bceGradEntry (yTrue yPred : Matrix) (i j : ℕ) : ℚ :=
  (bceClip (yPred.entry i j) - yTrue.entry i j) /
      (bceClip (yPred.entry i j) * (1 - bceClip (yPred.entry i j))) /
    ((yTrue.rows : ℚ) * yTrue.cols)

/-- The full BCE gradient data over `yTrue`'s index rectangle. -/
def bceGradData (yTrue yPred : Matrix) : List (List ℚ) :=
  (List.range yTrue.rows).map fun i =>
    (List.range yTrue.cols).map fun j => bceGradEntry yTrue yPred i j

/-- `BinaryCrossEntropy.gradient`: NO shape check — it loops over
`yTrue`'s index rectangle and reads `yPred` through the public checked
`get`, so a too-small `yPred` raises `IndexOutOfBounds` and a larger
`yPred` is silently accepted.  The trailing `new Matrix(result)`
revalidation passes whenever `yTrue` is well formed and is elided. -/
def bceGradient (yTrue yPred : Matrix) : Except Err Matrix := do
  let data ← (List.range yTrue.rows).mapM fun i =>
    (List.range yTrue.cols).mapM fun j => do
      let y ← yTrue.get i j
      let praw ← yPred.get i j
      pure ((bceClip praw - y) / (bceClip praw * (1 - bceClip praw)) /
        ((yTrue.rows : ℚ) * yTrue.cols))
  pure ⟨data⟩

/-- C2 counterexample: for `yTrue = [[0]]` (1×1) and
`yPred = [[1/2], [1/2]]` (2×1) the shapes differ, yet
`BinaryCrossEntropy.gradient` succeeds (returning `[[2]]`) instead of
failing with `ShapeMismatch`. -/
theorem bceGradient_ignores_shape_mismatch :
    ¬((Matrix.mk [[0]]).rows = (Matrix.mk [[1/2], [1/2]]).rows ∧
        (Matrix.mk [[0]]).cols = (Matrix.mk [[1/2], [1/2]]).cols) ∧
      bceGradient ⟨[[0]]⟩ ⟨[[1/2], [1/2]]⟩ = .ok ⟨[[2]]⟩ := by
  constructor
  · rintro ⟨h, -⟩
    simp [Matrix.rows] at h
  · rw [bceGradient]
    norm_num [Matrix.rows, Matrix.cols, Matrix.get, Matrix.entry, List.range_succ,
      List.mapM.loop, bceClip, bceEps, except_ok_bind]

/-- The inner BCE gradient loop body on in-range indices. -/
theorem bceGradient_body_ok {yT yP : Matrix} {i j : ℕ}
    (hi : i < yT.rows) (hj : j < yT.cols) (hi' : i < yP.rows) (hj' : j < yP.cols) :
    (do
      let y ← yT.get i j
      let praw ← yP.get i j
      pure ((bceClip praw - y) / (bceClip praw * (1 - bceClip praw)) /
        ((yT.rows : ℚ) * yT.cols)) : Except Err ℚ) = .ok (bceGradEntry yT yP i j) := by
  rw [Matrix.get, if_pos ⟨hi, hj⟩, Matrix.get, if_pos ⟨hi', hj'⟩]
  rfl

/-- The inner BCE gradient loop body when the read of `yPred` is out of
range. -/
theorem bceGradient_body_error {yT yP : Matrix} {i j : ℕ}
    (hi : i < yT.rows) (hj : j < yT.cols) (hout : ¬(i < yP.rows ∧ j < yP.cols)) :
    (do
      let y ← yT.get i j
      let praw ← yP.get i j
      pure ((bceClip praw - y) / (bceClip praw * (1 - bceClip praw)) /
        ((yT.rows : ℚ) * yT.cols)) : Except Err ℚ) = .error .indexOutOfBounds := by
  rw [Matrix.get, if_pos ⟨hi, hj⟩, Matrix.get, if_neg hout]
  rfl

/-- C2 amended: on unequal shapes `MeanSquaredError.loss`,
`MeanSquaredError.gradient` (through `subtract`) and
`BinaryCrossEntropy.loss` all fail with `ShapeMismatch`; but
`BinaryCrossEntropy.gradient` performs no shape check: when `yPred`'s
rectangle covers `yTrue`'s it returns a `yTrue`-shaped gradient with no
error, and when it does not it fails with `IndexOutOfBounds`. -/
theorem loss_shape_mismatch (yT yP : Matrix) (hT : yT.WF) (hP : yP.WF)
    (hne : ¬(yT.rows = yP.rows ∧ yT.cols = yP.cols)) :
    mseLoss yT yP = .error .shapeMismatch ∧
    mseGradient yT yP = .error .shapeMismatch ∧
    (∀ logFn, bceLoss logFn yT yP = .error .shapeMismatch) ∧
    (yT.rows ≤ yP.rows → yT.cols ≤ yP.cols →
      bceGradient yT yP = .ok ⟨bceGradData yT yP⟩) ∧
    ((yP.rows < yT.rows ∨ yP.cols < yT.cols) →
      bceGradient yT yP = .error .indexOutOfBounds) := by
  have hTrows : 0 < yT.rows := by
    obtain ⟨hne', hcols, hall⟩ := hT
    cases hd : yT.data with
    | nil => exact absurd hd hne'
    | cons r l => simp [Matrix.rows, hd]
  have hTcols : 0 < yT.cols := hT.2.1
  refine ⟨?_, ?_, ?_, ?_, ?_⟩
  · rw [mseLoss, if_neg hne]
  · have hne2 : ¬(yP.rows = yT.rows ∧ yP.cols = yT.cols) := by
      rintro ⟨h1, h2⟩; exact hne ⟨h1.symm, h2.symm⟩
    rw [mseGradient, Matrix.subtract, if_neg hne2]
    rfl
  · intro logFn
    rw [bceLoss, if_neg hne]
  · intro hrows hcols
    rw [bceGradient]
    have houter : ((List.range yT.rows).mapM fun i =>
        (List.range yT.cols).mapM fun j => do
          let y ← yT.get i j
          let praw ← yP.get i j
          pure ((bceClip praw - y) / (bceClip praw * (1 - bceClip praw)) /
            ((yT.rows : ℚ) * yT.cols))) = .ok (bceGradData yT yP) := by
      refine mapM_ok_of_forall _
        (fun i => (List.range yT.cols).map fun j => bceGradEntry yT yP i j)
        (List.range yT.rows) (fun i hi => ?_)
      rw [List.mem_range] at hi
      refine mapM_ok_of_forall _ (fun j => bceGradEntry yT yP i j)
        (List.range yT.cols) (fun j hj => ?_)
      rw [List.mem_range] at hj
      exact bceGradient_body_ok hi hj (lt_of_lt_of_le hi hrows) (lt_of_lt_of_le hj hcols)
    rw [houter]
    rfl
  · intro hlt
    have hProws : 0 < yP.rows := by
      obtain ⟨hne', -, -⟩ := hP
      cases hd : yP.data with
      | nil => exact absurd hd hne'
      | cons r l => simp [Matrix.rows, hd]
    rw [bceGradient]
    have houter : ((List.range yT.rows).mapM fun i =>
        (List.range yT.cols).mapM fun j => do
          let y ← yT.get i j
          let praw ← yP.get i j
          pure ((bceClip praw - y) / (bceClip praw * (1 - bceClip praw)) /
            ((yT.rows : ℚ) * yT.cols))) = .error .indexOutOfBounds := by
      rcases lt_or_le yP.cols yT.cols with hc | hc
      · -- already row 0 walks past yPred's columns at j = yP.cols
        obtain ⟨l₂, hsplit⟩ := range_split hTrows
        rw [hsplit]
        have hinner : ((List.range yT.cols).mapM fun j => do
            let y ← yT.get 0 j
            let praw ← yP.get 0 j
            pure ((bceClip praw - y) / (bceClip praw * (1 - bceClip praw)) /
              ((yT.rows : ℚ) * yT.cols))) = .error .indexOutOfBounds := by
          obtain ⟨l₃, hsplit'⟩ := range_split hc
          rw [hsplit']
          refine mapM_error_first (List.range yP.cols) yP.cols l₃ (fun j hj => ?_) ?_
          · rw [List.mem_range] at hj
            exact ⟨_, bceGradient_body_ok hTrows (lt_trans hj hc) hProws hj⟩
          · exact bceGradient_body_error hTrows hc (fun hh => lt_irrefl _ hh.2)
        refine mapM_error_first (List.range 0) 0 l₂ (by simp) hinner
      · -- yPred has too few rows: row yP.rows fails at j = 0
        have hrow : yP.rows < yT.rows := by
          rcases hlt with h | h
          · exact h
          · exact absurd h (not_lt.mpr hc)
        obtain ⟨l₂, hsplit⟩ := range_split hrow
        rw [hsplit]
        refine mapM_error_first (List.range yP.rows) yP.rows l₂ (fun i hi => ?_) ?_
        · rw [List.mem_range] at hi
          refine ⟨(List.range yT.cols).map fun j => bceGradEntry yT yP i j, ?_⟩
          refine mapM_ok_of_forall _ (fun j => bceGradEntry yT yP i j)
            (List.range yT.cols) (fun j hj => ?_)
          rw [List.mem_range] at hj
          exact bceGradient_body_ok (lt_trans hi hrow) hj hi (lt_of_lt_of_le hj hc)
        · have hinner : ((List.range yT.cols).mapM fun j => do
              let y ← yT.get yP.rows j
              let praw ← yP.get yP.rows j
              pure ((bceClip praw - y) / (bceClip praw * (1 - bceClip praw)) /
                ((yT.rows : ℚ) * yT.cols))) = .error .indexOutOfBounds := by
            obtain ⟨l₃, hsplit'⟩ := range_split hTcols
            rw [hsplit']
            refine mapM_error_first (List.range 0) 0 l₃ (by simp) ?_
            exact bceGradient_body_error hrow hTcols (fun hh => lt_irrefl _ hh.1)
          exact hinner
    rw [houter]
    rfl

/-- Witness for C2's amended statement at `yTrue = [[0]]`,
`yPred = [[1/2], [1/2]]`. -/
theorem loss_shape_mismatch_witness :
    (Matrix.mk [[0]]).WF ∧ (Matrix.mk [[1/2], [1/2]]).WF ∧
    ¬((Matrix.mk [[0]]).rows = (Matrix.mk [[1/2], [1/2]]).rows ∧
        (Matrix.mk [[0]]).cols = (Matrix.mk [[1/2], [1/2]]).cols) ∧
    mseLoss ⟨[[0]]⟩ ⟨[[1/2], [1/2]]⟩ = .error .shapeMismatch ∧
    mseGradient ⟨[[0]]⟩ ⟨[[1/2], [1/2]]⟩ = .error .shapeMismatch ∧
    (∀ logFn, bceLoss logFn ⟨[[0]]⟩ ⟨[[1/2], [1/2]]⟩ = .error .shapeMismatch) ∧
    bceGradient ⟨[[0]]⟩ ⟨[[1/2], [1/2]]⟩ = .ok ⟨bceGradData ⟨[[0]]⟩ ⟨[[1/2], [1/2]]⟩⟩ := by
  have hT : (Matrix.mk [[0]]).WF := by
    refine ⟨by simp, by simp [Matrix.cols], ?_⟩
    intro r hr
    simp at hr
    simp [hr, Matrix.cols]
  have hP : (Matrix.mk [[1/2], [1/2]]).WF := by
    refine ⟨by simp, by simp [Matrix.cols], ?_⟩
    intro r hr
    simp at hr
    simp [hr, Matrix.cols]
  have hne : ¬((Matrix.mk [[0]]).rows = (Matrix.mk [[1/2], [1/2]]).rows ∧
      (Matrix.mk [[0]]).cols = (Matrix.mk [[1/2], [1/2]]).cols) := by
    rintro ⟨h, -⟩
    simp [Matrix.rows] at h
  have h := loss_shape_mismatch ⟨[[0]]⟩ ⟨[[1/2], [1/2]]⟩ hT hP hne
  exact ⟨hT, hP, hne, h.1, h.2.1, h.2.2.1,
    h.2.2.2.1 (by simp [Matrix.rows]) (by simp [Matrix.cols])⟩

/-! ### Power iteration (claim C1)

The shared loop body of `Matrix.powerIteration` and
`SVD._powerIteration` (the two sources are line-for-line identical
inside the loop).  `Math.random` seeds become an explicit `seedFn`;
`Math.sqrt` becomes `sqrtFn`.  Inside the loop all reads through the
checked `get` are in range (`v` and `vNew` are `A.rows × 1` columns), so
they are modelled with `entry`; when the computed norm is zero every
quotient `vNew[i]/norm` is `0/0 = NaN` and the first `v.set` throws,
which is modelled as an `invalidValue` error (with `Math.sqrt`, a zero
norm occurs exactly when `vNew` is the zero vector). -/

/-- The result record `Matrix.powerIteration` actually returns:
`{ eigenvalue, eigenvector }` and nothing else. -/
structure EigResult where
  eigenvalue : ℚ
  eigenvector : Matrix
  deriving DecidableEq, Repr

/-- Modelled from the spec: the eigenpair record the spec describes and
`matrix.service.ts` destructures —
`{ eigenvalue, eigenvector, iterations, converged }`. -/
structure EigReport where
  eigenvalue : ℚ
  eigenvector : Matrix
  iterations : ℕ
  converged : Bool
  deriving DecidableEq, Repr

/-- The power-iteration loop.  State: remaining fuel, iterations already
executed, current vector `v`, last computed eigenvalue estimate, and
`prevEigenvalue`.  Returns the final eigenvalue, vector, the iteration
count actually used, and whether the tolerance break fired. -/
def powerLoop (sqrtFn : ℚ → ℚ) (A : Matrix) (tol : ℚ) :
    ℕ → ℕ → Matrix → ℚ → ℚ → Except Err (ℚ × Matrix × ℕ × Bool)
  | 0, used, v, eig, _ => .ok (eig, v, used, false)
  | fuel + 1, used, v, _, prevEig =>
    match A.multiply v with
    | .error e => .error e
    | .ok vNew =>
      let eigenvalue := ((List.range A.rows).map fun i => vNew.entry i 0 * v.entry i 0).sum
      let normSquared := ((List.range A.rows).map fun i => vNew.entry i 0 * vNew.entry i 0).sum
      let norm := sqrtFn normSquared
      if norm = 0 then .error .invalidValue
      else
        let v' : Matrix := ⟨(List.range A.rows).map fun i => [vNew.entry i 0 / norm]⟩
        if |eigenvalue - prevEig| < tol then .ok (eigenvalue, v', used + 1, true)
        else powerLoop sqrtFn A tol fuel (used + 1) v' eigenvalue eigenvalue

namespace Matrix

/-- `_normalizeVector`: column check, norm, explicit zero-vector throw. -/
def normalizeVector (sqrtFn : ℚ → ℚ) (v : Matrix) : Except Err Matrix :=
  if v.cols ≠ 1 then .error .invalidShape
  else
    let norm := sqrtFn (((List.range v.rows).map fun i => v.entry i 0 * v.entry i 0).sum)
    if norm = 0 then .error .zeroVector
    else .ok ⟨(List.range v.rows).map fun i => [v.entry i 0 / norm]⟩

/-- `Matrix.powerIteration(maxIterations, tolerance)`: `NotSquare` check,
random seed column (`Matrix.zeros(rows, 1)` filled by `set`, here the
`seedFn` column directly), `_normalizeVector`, then the loop with
`eigenvalue = prevEigenvalue = 0`.  The returned record holds ONLY the
eigenvalue and eigenvector. -/
def powerIteration (sqrtFn : ℚ → ℚ) (A : Matrix) (seedFn : ℕ → ℚ)
    (maxIterations : ℕ) (tol : ℚ) : Except Err EigResult :=
  if A.isSquare then
    match normalizeVector sqrtFn ⟨(List.range A.rows).map fun i => [seedFn i]⟩ with
    | .error e => .error e
    | .ok v =>
      match powerLoop sqrtFn A tol maxIterations 0 v 0 0 with
      | .error e => .error e
      | .ok r => .ok ⟨r.1, r.2.1⟩
  else .error .notSquare

/-- Modelled from the spec: the variant of `powerIteration` that also
reports `iterations` (the count actually used) and `converged`, exactly
as the spec's eigenpair record and `matrix.service.ts` expect.  Same
loop, nothing dropped. -/
def powerIterationReport (sqrtFn : ℚ → ℚ) (A : Matrix) (seedFn : ℕ → ℚ)
    (maxIterations : ℕ) (tol : ℚ) : Except Err EigReport :=
  if A.isSquare then
    match normalizeVector sqrtFn ⟨(List.range A.rows).map fun i => [seedFn i]⟩ with
    | .error e => .error e
    | .ok v =>
      match powerLoop sqrtFn A tol maxIterations 0 v 0 0 with
      | .error e => .error e
      | .ok r => .ok ⟨r.1, r.2.1, r.2.2.1, r.2.2.2⟩
  else .error .notSquare

end Matrix

/-- Fuel/iteration accounting of the loop: the reported count never
exceeds the fuel, equals the full fuel when the break did not fire, and
is at least one when it did. -/
theorem powerLoop_count {sqrtFn : ℚ → ℚ} {A : Matrix} {tol : ℚ} :
    ∀ (fuel used : ℕ) (v : Matrix) (eig prev : ℚ) (r : ℚ × Matrix × ℕ × Bool),
      powerLoop sqrtFn A tol fuel used v eig prev = .ok r →
      r.2.2.1 ≤ used + fuel ∧ (r.2.2.2 = false → r.2.2.1 = used + fuel) ∧
        (r.2.2.2 = true → used + 1 ≤ r.2.2.1) := by
  intro fuel
  induction fuel with
  | zero =>
    intro used v eig prev r h
    rw [powerLoop] at h
    cases h
    refine ⟨?_, fun _ => ?_, fun hc => ?_⟩
    · show used ≤ used + 0
      omega
    · show used = used + 0
      omega
    · exact Bool.noConfusion hc
  | succ fuel ih =>
    intro used v eig prev r h
    rw [powerLoop] at h
    cases hm : A.multiply v with
    | error e => rw [hm] at h; cases h
    | ok vNew =>
      rw [hm] at h
      simp only at h
      split at h
      · cases h
      · split at h
        · cases h
          refine ⟨?_, fun hc => ?_, fun _ => ?_⟩
          · show used + 1 ≤ used + (fuel + 1)
            omega
          · exact Bool.noConfusion hc
          · show used + 1 ≤ used + 1
            omega
        · have hrec := ih (used + 1) _ _ _ r h
          refine ⟨by omega, fun hc => ?_, fun hc => ?_⟩
          · have := hrec.2.1 hc; omega
          · have := hrec.2.2 hc; omega

/-- C1 amended: `powerIteration` returns only `{ eigenvalue,
eigenvector }` — it equals the spec's four-field report with the
`iterations` and `converged` fields dropped; internally the loop does
stop early when the eigenvalue change falls below the tolerance, uses at
most `maxIterations` iterations, and uses exactly `maxIterations` when
it does not converge. -/
theorem powerIteration_forgets_report (sqrtFn : ℚ → ℚ) (A : Matrix) (seedFn : ℕ → ℚ)
    (maxIterations : ℕ) (tol : ℚ) :
    Matrix.powerIteration sqrtFn A seedFn maxIterations tol =
      (Matrix.powerIterationReport sqrtFn A seedFn maxIterations tol).map
        (fun r => ⟨r.eigenvalue, r.eigenvector⟩) ∧
    (∀ r, Matrix.powerIterationReport sqrtFn A seedFn maxIterations tol = .ok r →
      r.iterations ≤ maxIterations ∧ (r.converged = false → r.iterations = maxIterations) ∧
        (r.converged = true → 1 ≤ r.iterations)) := by
  constructor
  · rw [Matrix.powerIteration, Matrix.powerIterationReport]
    by_cases hsq : A.isSquare
    · rw [if_pos hsq, if_pos hsq]
      cases hn : Matrix.normalizeVector sqrtFn ⟨(List.range A.rows).map fun i => [seedFn i]⟩ with
      | error e => simp [Except.map]
      | ok v =>
        cases hl : powerLoop sqrtFn A tol maxIterations 0 v 0 0 with
        | error e => simp [hl, Except.map]
        | ok r => simp [hl, Except.map]
    · rw [if_neg hsq, if_neg hsq]; rfl
  · intro r h
    rw [Matrix.powerIterationReport] at h
    split at h
    · cases hn : Matrix.normalizeVector sqrtFn ⟨(List.range A.rows).map fun i => [seedFn i]⟩ with
      | error e => rw [hn] at h; cases h
      | ok v =>
        rw [hn] at h
        simp only at h
        cases hl : powerLoop sqrtFn A tol maxIterations 0 v 0 0 with
        | error e => rw [hl] at h; cases h
        | ok p =>
          rw [hl] at h
          cases h
          have hcount := powerLoop_count maxIterations 0 v 0 0 p hl
          refine ⟨?_, fun hc => ?_, fun hc => ?_⟩
          · show p.2.2.1 ≤ maxIterations
            have := hcount.1; omega
          · show p.2.2.1 = maxIterations
            have hc' : p.2.2.2 = false := hc
            have := hcount.2.1 hc'; omega
          · show 1 ≤ p.2.2.1
            have hc' : p.2.2.2 = true := hc
            have := hcount.2.2 hc'; omega
    · cases h

/-- C1 counterexample: two runs of `powerIteration` on `[[1]]` return
the very same record, yet one converged (tolerance 2, five iterations
allowed, break in iteration 1) and the other exhausted its single
allowed iteration without converging (tolerance 1/2).  The returned
record therefore carries no `converged`/`iterations` information at
all — no field of it can equal the claimed convergence report. -/
theorem powerIteration_result_underdetermines_convergence :
    Matrix.powerIteration id ⟨[[1]]⟩ (fun _ => 1) 5 2 =
      Matrix.powerIteration id ⟨[[1]]⟩ (fun _ => 1) 1 (1/2) ∧
    (Matrix.powerIterationReport id ⟨[[1]]⟩ (fun _ => 1) 5 2).map EigReport.converged =
      .ok true ∧
    (Matrix.powerIterationReport id ⟨[[1]]⟩ (fun _ => 1) 1 (1/2)).map EigReport.converged =
      .ok false := by
  refine ⟨?_, ?_, ?_⟩ <;>
    norm_num [Matrix.powerIteration, Matrix.powerIterationReport, Matrix.normalizeVector,
      powerLoop, Matrix.isSquare, Matrix.rows, Matrix.cols, Matrix.entry,
      Matrix.multiply, Matrix.mulData, List.range_succ, Except.map]

/-! ### Gradient descent (claim C4)

`GradientDescent.optimize` over the abstract `OptimizableModel` /
`LossFunction` contracts.  The contracts are modelled as total
functions: a model or loss method that throws aborts `optimize` with no
returned record, so the claim's statements about the returned record
concern exactly the non-throwing runs.  Matrix arithmetic inside
`computeUpdates` is modelled with the data-level (total) operations: for
a model whose gradients match its parameter shapes — the only case in
which the source's `optimize` returns at all — they agree with the
checked methods. -/

/-- The elementwise helpers `elementWiseMultiply`, `elementWiseDivide`,
`elementWiseSqrt` and `addScalar` are called by `computeUpdates` but
their definitions are missing from the staged `matrix.ts`; they are
modelled from the spec's Adam update rule (elementwise product,
quotient, square root and scalar shift). -/
def Matrix.elementWiseMultiply (A B : Matrix) : Matrix :=
  ⟨(List.range A.rows).map fun i =>
    (List.range A.cols).map fun j => A.entry i j * B.entry i j⟩

/-- Modelled from the spec (missing from the staged `matrix.ts`):
elementwise quotient. -/
def Matrix.elementWiseDivide (A B : Matrix) : Matrix :=
  ⟨(List.range A.rows).map fun i =>
    (List.range A.cols).map fun j => A.entry i j / B.entry i j⟩

/-- Modelled from the spec (missing from the staged `matrix.ts`):
elementwise square root, through the abstract `sqrtFn`. -/
def Matrix.elementWiseSqrt (sqrtFn : ℚ → ℚ) (A : Matrix) : Matrix :=
  ⟨(List.range A.rows).map fun i =>
    (List.range A.cols).map fun j => sqrtFn (A.entry i j)⟩

/-- Modelled from the spec (missing from the staged `matrix.ts`):
entrywise scalar shift. -/
def Matrix.addScalar (A : Matrix) (c : ℚ) : Matrix :=
  ⟨(List.range A.rows).map fun i =>
    (List.range A.cols).map fun j => A.entry i j + c⟩

/-- Data-level `add` (shapes always match inside surviving
`computeUpdates` runs). -/
def Matrix.addT (A B : Matrix) : Matrix := ⟨Matrix.addData A B⟩

/-- Data-level `multiplyScalar`. -/
def Matrix.scaleT (A : Matrix) (c : ℚ) : Matrix := ⟨Matrix.scaleData A c⟩

/-- Data-level `divideScalar` (its `DivisionByZero` guard can fire in the
source only when a bias-correction denominator `1 - β^(t+1)` vanishes,
i.e. `β = 1`). -/
def Matrix.divT (A : Matrix) (c : ℚ) : Matrix := ⟨Matrix.divData A c⟩

/-- The `LossFunction` contract, totalised. -/
structure LossFn where
  loss : Matrix → Matrix → ℚ
  gradient : Matrix → Matrix → Matrix

/-- The `OptimizableModel` contract over an explicit model-state type
`σ` (parameter mutation becomes state passing). -/
structure OptModel (σ : Type) where
  predict : σ → Matrix → Matrix
  getParameters : σ → List Matrix
  updateParameters : σ → List Matrix → σ
  computeGradients : σ → Matrix → Matrix → LossFn → List Matrix

/-- `method ∈ {sgd, momentum, adam}` (the TS union type; an unknown
string cannot inhabit it, matching the `default: throw` branch being
unreachable from typed callers). -/
inductive GDMethod where
  | sgd
  | momentum
  | adam
  deriving DecidableEq, Repr

/-- The `GradientDescent` constructor configuration. -/
structure GDConfig where
  learningRate : ℚ
  maxIterations : ℕ
  tolerance : ℚ
  method : GDMethod
  momentumBeta : ℚ
  adamBeta1 : ℚ
  adamBeta2 : ℚ
  adamEpsilon : ℚ

/-- The optimizer's mutable fields: `velocity`, `m`, `v`, `t`. -/
structure OptState where
  velocity : List Matrix
  m : List Matrix
  v : List Matrix
  t : ℕ

/-- `initializeState(model)`: velocity buffers are always re-created;
`m`, `v` and `t` are reset only for Adam (for SGD/momentum the previous
`m`/`v`/`t` fields persist, as in the source). -/
def initializeState {σ : Type} (cfg : GDConfig) (M : OptModel σ) (s : σ)
    (prev : OptState) : OptState :=
  let params := M.getParameters s
  let st : OptState := { prev with velocity := params.map fun p => ⟨Matrix.zerosData p.rows p.cols⟩ }
  match cfg.method with
  | .adam =>
    { st with
      m := params.map fun p => ⟨Matrix.zerosData p.rows p.cols⟩
      v := params.map fun p => ⟨Matrix.zerosData p.rows p.cols⟩
      t := 0 }
  | _ => st

/-- `computeUpdates(gradients)`: the three update rules.  The source's
in-place loops over `this.velocity[i]` / `this.m[i]` / `this.v[i]`
become index maps (each index is updated independently; missing entries
default to the empty matrix, which cannot occur after
`initializeState`). -/
def computeUpdates (cfg : GDConfig) (sqrtFn : ℚ → ℚ) (st : OptState)
    (grads : List Matrix) : OptState × List Matrix :=
  match cfg.method with
  | .sgd => (st, grads.map fun g => Matrix.scaleT g cfg.learningRate)
  | .momentum =>
    let vel := (List.range grads.length).map fun i =>
      Matrix.addT (Matrix.scaleT (st.velocity.getD i ⟨[]⟩) cfg.momentumBeta)
        (Matrix.scaleT (grads.getD i ⟨[]⟩) cfg.learningRate)
    ({ st with velocity := vel }, vel.map Matrix.clone)
  | .adam =>
    let mNew := (List.range grads.length).map fun i =>
      Matrix.addT (Matrix.scaleT (st.m.getD i ⟨[]⟩) cfg.adamBeta1)
        (Matrix.scaleT (grads.getD i ⟨[]⟩) (1 - cfg.adamBeta1))
    let vNew := (List.range grads.length).map fun i =>
      Matrix.addT (Matrix.scaleT (st.v.getD i ⟨[]⟩) cfg.adamBeta2)
        (Matrix.scaleT
          (Matrix.elementWiseMultiply (grads.getD i ⟨[]⟩) (grads.getD i ⟨[]⟩))
          (1 - cfg.adamBeta2))
    let updates := (List.range grads.length).map fun i =>
      let mHat := Matrix.divT (mNew.getD i ⟨[]⟩) (1 - cfg.adamBeta1 ^ (st.t + 1))
      let vHat := Matrix.divT (vNew.getD i ⟨[]⟩) (1 - cfg.adamBeta2 ^ (st.t + 1))
      Matrix.scaleT
        (Matrix.elementWiseDivide mHat
          (Matrix.addScalar (Matrix.elementWiseSqrt sqrtFn vHat) cfg.adamEpsilon))
        cfg.learningRate
    ({ st with m := mNew, v := vNew }, updates)

/-- The loss the loop computes at a given model/optimizer state:
`lossFn.loss(y, model.predict(X))`. -/
def gdLossAt {σ : Type} (M : OptModel σ) (X y : Matrix) (lf : LossFn)
    (z : σ × OptState) : ℚ :=
  lf.loss y (M.predict z.1 X)

/-- The non-converging iteration tail: compute gradients, compute the
method-specific updates, apply them, increment `t`. -/
def gdStep {σ : Type} (cfg : GDConfig) (sqrtFn : ℚ → ℚ) (M : OptModel σ)
    (X y : Matrix) (lf : LossFn) (z : σ × OptState) : σ × OptState :=
  let grads := M.computeGradients z.1 X y lf
  let p := computeUpdates cfg sqrtFn z.2 grads
  (M.updateParameters z.1 p.2, { p.1 with t := p.1.t + 1 })

/-- The convergence test `Math.abs(prevLoss - currentLoss) <
this.tolerance`.  Before the first iteration `prevLoss` is `Infinity`
(modelled as `none`), for which the test is always false. -/
def gdStop (tol : ℚ) (prev : Option ℚ) (cur : ℚ) : Bool :=
  match prev with
  | some p => decide (|p - cur| < tol)
  | none => false

/-- The `optimize` iteration loop: compute and record the loss, break
(marking convergence) before taking any parameter update, else step. -/
def gdLoop {σ : Type} (cfg : GDConfig) (sqrtFn : ℚ → ℚ) (M : OptModel σ)
    (X y : Matrix) (lf : LossFn) :
    ℕ → σ × OptState → Option ℚ → List ℚ × Bool × (σ × OptState)
  | 0, z, _ => ([], false, z)
  | fuel + 1, z, prev =>
    let currentLoss := gdLossAt M X y lf z
    if gdStop cfg.tolerance prev currentLoss then ([currentLoss], true, z)
    else
      let r := gdLoop cfg sqrtFn M X y lf fuel (gdStep cfg sqrtFn M X y lf z) (some currentLoss)
      (currentLoss :: r.1, r.2.1, r.2.2)

/-- The record `optimize` returns (`iterations: losses.length` as in the
source), paired with the final model/optimizer state (the source mutates
the model in place). -/
structure GDResult where
  losses : List ℚ
  converged : Bool
  iterations : ℕ

/-- `GradientDescent.optimize(model, X, y, lossFn)`. -/
def GradientDescent.optimize {σ : Type} (cfg : GDConfig) (sqrtFn : ℚ → ℚ)
    (M : OptModel σ) (X y : Matrix) (lf : LossFn) (s₀ : σ) (os₀ : OptState) :
    GDResult × (σ × OptState) :=
  let r := gdLoop cfg sqrtFn M X y lf cfg.maxIterations
    (s₀, initializeState cfg M s₀ os₀) none
  ({ losses := r.1, converged := r.2.1, iterations := r.1.length }, r.2.2)

theorem gdStop_true_iff {tol : ℚ} {prev : Option ℚ} {cur : ℚ} :
    gdStop tol prev cur = true ↔ ∃ p, prev = some p ∧ |p - cur| < tol := by
  cases prev with
  | none => simp [gdStop]
  | some p => simp [gdStop]

/-- Full characterisation of the `optimize` loop relative to the pure
step function: the recorded losses are the losses at the iterated
states in order, the loop runs at most `fuel` iterations, a convergence
break leaves the state un-stepped in its final iteration, and a
non-converged exit means the fuel was exhausted with one step per
iteration. -/
theorem gdLoop_spec {σ : Type} (cfg : GDConfig) (sqrtFn : ℚ → ℚ) (M : OptModel σ)
    (X y : Matrix) (lf : LossFn) :
    ∀ (fuel : ℕ) (z : σ × OptState) (prev : Option ℚ),
      (gdLoop cfg sqrtFn M X y lf fuel z prev).1.length ≤ fuel ∧
      (gdLoop cfg sqrtFn M X y lf fuel z prev).1 =
        (List.range (gdLoop cfg sqrtFn M X y lf fuel z prev).1.length).map
          (fun j => gdLossAt M X y lf ((gdStep cfg sqrtFn M X y lf)^[j] z)) ∧
      ((gdLoop cfg sqrtFn M X y lf fuel z prev).2.1 = true →
        (gdLoop cfg sqrtFn M X y lf fuel z prev).2.2 =
          (gdStep cfg sqrtFn M X y lf)^[(gdLoop cfg sqrtFn M X y lf fuel z prev).1.length - 1] z ∧
        (((gdLoop cfg sqrtFn M X y lf fuel z prev).1.length = 1 ∧
            ∃ p, prev = some p ∧ |p - gdLossAt M X y lf z| < cfg.tolerance) ∨
          (2 ≤ (gdLoop cfg sqrtFn M X y lf fuel z prev).1.length ∧
            |gdLossAt M X y lf ((gdStep cfg sqrtFn M X y lf)^[(gdLoop cfg sqrtFn M X y lf fuel z prev).1.length - 2] z) -
              gdLossAt M X y lf ((gdStep cfg sqrtFn M X y lf)^[(gdLoop cfg sqrtFn M X y lf fuel z prev).1.length - 1] z)| <
              cfg.tolerance))) ∧
      ((gdLoop cfg sqrtFn M X y lf fuel z prev).2.1 = false →
        (gdLoop cfg sqrtFn M X y lf fuel z prev).1.length = fuel ∧
        (gdLoop cfg sqrtFn M X y lf fuel z prev).2.2 = (gdStep cfg sqrtFn M X y lf)^[fuel] z) := by
  intro fuel
  induction fuel with
  | zero =>
    intro z prev
    rw [gdLoop]
    refine ⟨by simp, by simp, fun hc => Bool.noConfusion hc, fun _ => ⟨rfl, rfl⟩⟩
  | succ fuel ih =>
    intro z prev
    rw [gdLoop]
    by_cases hstop : gdStop cfg.tolerance prev (gdLossAt M X y lf z)
    · rw [if_pos hstop]
      refine ⟨by simp, ?_, fun _ => ?_, fun hc => Bool.noConfusion hc⟩
      · show [gdLossAt M X y lf z] =
          (List.range 1).map (fun j => gdLossAt M X y lf ((gdStep cfg sqrtFn M X y lf)^[j] z))
        have h1 : List.range 1 = [0] := rfl
        rw [h1, List.map_cons, List.map_nil, Function.iterate_zero_apply]
      · exact ⟨by simp [Function.iterate_zero_apply],
          Or.inl ⟨by simp, gdStop_true_iff.mp hstop⟩⟩
    · rw [if_neg hstop]
      obtain ⟨ihlen, ihlosses, ihtrue, ihfalse⟩ :=
        ih (gdStep cfg sqrtFn M X y lf z) (some (gdLossAt M X y lf z))
      refine ⟨?_, ?_, ?_, ?_⟩
      · simpa using Nat.succ_le_succ ihlen
      · show gdLossAt M X y lf z :: (gdLoop cfg sqrtFn M X y lf fuel
            (gdStep cfg sqrtFn M X y lf z) (some (gdLossAt M X y lf z))).1 = _
        rw [List.length_cons, List.range_succ_eq_map, List.map_cons, List.map_map,
          Function.iterate_zero_apply]
        congr 1
      · intro hc
        obtain ⟨hfinal, hdisj⟩ := ihtrue hc
        have hlen1 : 1 ≤ (gdLoop cfg sqrtFn M X y lf fuel (gdStep cfg sqrtFn M X y lf z)
            (some (gdLossAt M X y lf z))).1.length := by
          rcases hdisj with ⟨h1, -⟩ | ⟨h2, -⟩ <;> omega
        constructor
        · show (gdLoop cfg sqrtFn M X y lf fuel _ _).2.2 = _
          rw [hfinal, List.length_cons]
          rw [show (gdLoop cfg sqrtFn M X y lf fuel (gdStep cfg sqrtFn M X y lf z)
            (some (gdLossAt M X y lf z))).1.length + 1 - 1 =
            ((gdLoop cfg sqrtFn M X y lf fuel (gdStep cfg sqrtFn M X y lf z)
              (some (gdLossAt M X y lf z))).1.length - 1) + 1 by omega]
          rw [Function.iterate_succ_apply]
        · refine Or.inr ?_
          rcases hdisj with ⟨h1, p, hp, hlt⟩ | ⟨h2, hlt⟩
          · cases hp
            refine ⟨by simp [List.length_cons, h1], ?_⟩
            rw [List.length_cons, h1]
            show |gdLossAt M X y lf ((gdStep cfg sqrtFn M X y lf)^[0] z) -
              gdLossAt M X y lf ((gdStep cfg sqrtFn M X y lf)^[1] z)| < cfg.tolerance
            rw [Function.iterate_zero_apply, Function.iterate_one]
            exact hlt
          · refine ⟨by simp [List.length_cons]; omega, ?_⟩
            rw [List.length_cons]
            rw [show (gdLoop cfg sqrtFn M X y lf fuel (gdStep cfg sqrtFn M X y lf z)
              (some (gdLossAt M X y lf z))).1.length + 1 - 2 =
              ((gdLoop cfg sqrtFn M X y lf fuel (gdStep cfg sqrtFn M X y lf z)
                (some (gdLossAt M X y lf z))).1.length - 2) + 1 by omega]
            rw [show (gdLoop cfg sqrtFn M X y lf fuel (gdStep cfg sqrtFn M X y lf z)
              (some (gdLossAt M X y lf z))).1.length + 1 - 1 =
              ((gdLoop cfg sqrtFn M X y lf fuel (gdStep cfg sqrtFn M X y lf z)
                (some (gdLossAt M X y lf z))).1.length - 1) + 1 by omega]
            rw [Function.iterate_succ_apply, Function.iterate_succ_apply]
            exact hlt
      · intro hc
        obtain ⟨hlen, hfinal⟩ := ihfalse hc
        refine ⟨by simp [List.length_cons, hlen], ?_⟩
        show (gdLoop cfg sqrtFn M X y lf fuel _ _).2.2 = _
        rw [hfinal, Function.iterate_succ_apply]

/-- C4: `optimize` loops at most `maxIterations` times; the returned
record satisfies `iterations = losses.length` with the losses in
computation order (`losses[j]` is the loss after `j` parameter
updates); when it converges, the final iteration applied no parameter
update (the final state is the `iterations − 1`-fold step) and the
convergence test held between the last two recorded losses; when it
does not converge it ran exactly `maxIterations` iterations, each with
its update. -/
theorem gradientDescent_optimize_spec (σ : Type) (cfg : GDConfig) (sqrtFn : ℚ → ℚ)
    (M : OptModel σ) (X y : Matrix) (lf : LossFn) (s₀ : σ) (os₀ : OptState) :
    (GradientDescent.optimize cfg sqrtFn M X y lf s₀ os₀).1.iterations =
      (GradientDescent.optimize cfg sqrtFn M X y lf s₀ os₀).1.losses.length ∧
    (GradientDescent.optimize cfg sqrtFn M X y lf s₀ os₀).1.losses.length ≤ cfg.maxIterations ∧
    (GradientDescent.optimize cfg sqrtFn M X y lf s₀ os₀).1.losses =
      (List.range (GradientDescent.optimize cfg sqrtFn M X y lf s₀ os₀).1.iterations).map
        (fun j => gdLossAt M X y lf
          ((gdStep cfg sqrtFn M X y lf)^[j] (s₀, initializeState cfg M s₀ os₀))) ∧
    ((GradientDescent.optimize cfg sqrtFn M X y lf s₀ os₀).1.converged = true →
      2 ≤ (GradientDescent.optimize cfg sqrtFn M X y lf s₀ os₀).1.iterations ∧
      |gdLossAt M X y lf ((gdStep cfg sqrtFn M X y lf)^[(GradientDescent.optimize cfg sqrtFn M X y lf s₀ os₀).1.iterations - 2]
          (s₀, initializeState cfg M s₀ os₀)) -
        gdLossAt M X y lf ((gdStep cfg sqrtFn M X y lf)^[(GradientDescent.optimize cfg sqrtFn M X y lf s₀ os₀).1.iterations - 1]
          (s₀, initializeState cfg M s₀ os₀))| < cfg.tolerance ∧
      (GradientDescent.optimize cfg sqrtFn M X y lf s₀ os₀).2 =
        (gdStep cfg sqrtFn M X y lf)^[(GradientDescent.optimize cfg sqrtFn M X y lf s₀ os₀).1.iterations - 1]
          (s₀, initializeState cfg M s₀ os₀)) ∧
    ((GradientDescent.optimize cfg sqrtFn M X y lf s₀ os₀).1.converged = false →
      (GradientDescent.optimize cfg sqrtFn M X y lf s₀ os₀).1.iterations = cfg.maxIterations ∧
      (GradientDescent.optimize cfg sqrtFn M X y lf s₀ os₀).2 =
        (gdStep cfg sqrtFn M X y lf)^[cfg.maxIterations]
          (s₀, initializeState cfg M s₀ os₀)) := by
  obtain ⟨hlen, hlosses, htrue, hfalse⟩ :=
    gdLoop_spec cfg sqrtFn M X y lf cfg.maxIterations (s₀, initializeState cfg M s₀ os₀) none
  refine ⟨rfl, hlen, hlosses, ?_, ?_⟩
  · intro hc
    obtain ⟨hfinal, hdisj⟩ := htrue hc
    rcases hdisj with ⟨-, p, hp, -⟩ | ⟨h2, hlt⟩
    · cases hp
    · exact ⟨h2, hlt, hfinal⟩
  · intro hc
    obtain ⟨hlen', hfinal⟩ := hfalse hc
    exact ⟨hlen', hfinal⟩

/-! ### Matrix write/fold machinery (shared by the PCA, SVD and QR proofs) -/

namespace Matrix

theorem WF.rows_pos {A : Matrix} (h : A.WF) : 0 < A.rows := by
  obtain ⟨hne, -, -⟩ := h
  cases hd : A.data with
  | nil => exact absurd hd hne
  | cons r l => simp [Matrix.rows, hd]

theorem WF.cols_pos {A : Matrix} (h : A.WF) : 0 < A.cols := h.2.1

theorem WF.row_length {A : Matrix} (h : A.WF) {i : ℕ} (hi : i < A.rows) :
    (A.data.getD i []).length = A.cols := by
  refine h.2.2 _ ?_
  rw [List.getD_eq_getElem?_getD]
  have : A.data[i]? = some A.data[i] := List.getElem?_eq_getElem hi
  rw [this]
  exact List.getElem_mem hi

/-- Effect of one successful `set` on a well-formed matrix: unchanged
shape and well-formedness, and pointwise update of exactly one entry. -/
theorem set_spec {A : Matrix} (hwf : A.WF) {i j : ℕ} (hi : i < A.rows) (hj : j < A.cols)
    (v : ℚ) :
    ∃ A', A.set i j v = .ok A' ∧ A'.WF ∧ A'.rows = A.rows ∧ A'.cols = A.cols ∧
      ∀ i' j', A'.entry i' j' = if i' = i ∧ j' = j then v else A.entry i' j' := by
  obtain ⟨hne, hcols, hall⟩ := hwf
  have hrowmem : A.data.getD i [] ∈ A.data := by
    rw [List.getD_eq_getElem?_getD]
    have hsome : A.data[i]? = some A.data[i] := List.getElem?_eq_getElem hi
    rw [hsome]
    exact List.getElem_mem hi
  have hcols' : (Matrix.mk (A.data.set i ((A.data.getD i []).set j v))).cols = A.cols := by
    show ((A.data.set i ((A.data.getD i []).set j v)).headD []).length = _
    cases hd : A.data with
    | nil => exact absurd hd hne
    | cons r l =>
      cases i with
      | zero =>
        show ((r :: l).getD 0 [] |>.set j v).length = A.cols
        rw [List.length_set]
        exact hall r (by rw [hd]; simp)
      | succ k =>
        show r.length = A.cols
        exact hall r (by rw [hd]; simp)
  refine ⟨⟨A.data.set i ((A.data.getD i []).set j v)⟩, ?_, ?_, ?_, hcols', ?_⟩
  · rw [set, if_pos ⟨hi, hj⟩]
  · refine ⟨?_, ?_, ?_⟩
    · intro hempty
      rw [List.set_eq_nil_iff] at hempty
      exact hne hempty
    · rw [hcols']; exact hcols
    · intro r hr
      rw [hcols']
      rcases List.mem_or_eq_of_mem_set hr with hmem | rfl
      · exact hall r hmem
      · rw [List.length_set]
        exact hall _ hrowmem
  · show (A.data.set i ((A.data.getD i []).set j v)).length = A.data.length
    exact List.length_set A.data i _
  · intro i' j'
    have hrowlen : (A.data.getD i []).length = A.cols := hall _ hrowmem
    show ((A.data.set i ((A.data.getD i []).set j v)).getD i' []).getD j' 0 = _
    by_cases hii : i' = i
    · subst hii
      have hrow : (A.data.set i' ((A.data.getD i' []).set j v)).getD i' [] =
          (A.data.getD i' []).set j v := by
        rw [List.getD_eq_getElem?_getD, List.getElem?_set_eq_of_lt _ hi]
        rfl
      rw [hrow]
      by_cases hjj : j' = j
      · subst hjj
        have hjlen : j' < (A.data.getD i' []).length := by
          rw [hrowlen]; exact hj
        rw [List.getD_eq_getElem?_getD, List.getElem?_set_eq_of_lt _ hjlen]
        simp
      · rw [List.getD_eq_getElem?_getD, List.getElem?_set_ne (fun h => hjj h.symm),
          ← List.getD_eq_getElem?_getD]
        rw [if_neg (fun h => hjj h.2)]
        rfl
    · have hrow : (A.data.set i ((A.data.getD i []).set j v)).getD i' [] =
          A.data.getD i' [] := by
        rw [List.getD_eq_getElem?_getD, List.getElem?_set_ne (fun h => hii h.symm),
          ← List.getD_eq_getElem?_getD]
      rw [hrow, if_neg (fun h => hii h.1)]
      rfl

/-- A fold of pure `set` writes at in-range positions succeeds and
produces exactly the pointwise update (later writes of the same
function value make duplicates harmless). -/
theorem foldlM_set_spec (val : ℕ → ℕ → ℚ) :
    ∀ (ps : List (ℕ × ℕ)) (M : Matrix), M.WF →
      (∀ p ∈ ps, p.1 < M.rows ∧ p.2 < M.cols) →
      ∃ M', (ps.foldlM (fun acc p => acc.set p.1 p.2 (val p.1 p.2)) M : Except Err Matrix) =
          .ok M' ∧
        M'.WF ∧ M'.rows = M.rows ∧ M'.cols = M.cols ∧
        ∀ i j, M'.entry i j = if (i, j) ∈ ps then val i j else M.entry i j := by
  intro ps
  induction ps with
  | nil =>
    intro M hwf _
    exact ⟨M, rfl, hwf, rfl, rfl, fun i j => by simp⟩
  | cons p ps ih =>
    intro M hwf hin
    obtain ⟨hp1, hp2⟩ := hin p (by simp)
    obtain ⟨M₁, hset, hwf₁, hr₁, hc₁, hentry₁⟩ := set_spec hwf hp1 hp2 (val p.1 p.2)
    obtain ⟨M', hfold, hwf', hr', hc', hentry'⟩ := ih M₁ hwf₁ (fun q hq => by
      rw [hr₁, hc₁]; exact hin q (by simp [hq]))
    refine ⟨M', ?_, hwf', by rw [hr', hr₁], by rw [hc', hc₁], ?_⟩
    · rw [List.foldlM_cons, hset, except_ok_bind, hfold]
    · intro i j
      rw [hentry' i j, hentry₁ i j]
      by_cases hmem : (i, j) ∈ ps
      · rw [if_pos hmem, if_pos (List.mem_cons_of_mem p hmem)]
      · rw [if_neg hmem]
        by_cases heq : i = p.1 ∧ j = p.2
        · obtain ⟨h1, h2⟩ := heq
          subst h1
          subst h2
          rw [if_pos ⟨rfl, rfl⟩, if_pos (List.mem_cons.mpr (Or.inl rfl))]
        · rw [if_neg heq, if_neg (fun hc => ?_)]
          rcases List.mem_cons.mp hc with hc1 | hc2
          · refine heq ?_
            rw [Prod.ext_iff] at hc1
            exact hc1
          · exact hmem hc2

/-- Congruence for `foldlM` over `Except`. -/
theorem foldlM_congr {α β : Type} {f g : β → α → Except Err β} :
    ∀ (l : List α) (b : β), (∀ x ∈ l, ∀ y, f y x = g y x) →
      l.foldlM f b = l.foldlM g b := by
  intro l
  induction l with
  | nil => intro b _; rfl
  | cons x l ih =>
    intro b h
    rw [List.foldlM_cons, List.foldlM_cons, h x (by simp) b]
    cases g b x with
    | error e => rfl
    | ok b' =>
      rw [except_ok_bind, except_ok_bind]
      exact ih b' (fun y hy => h y (by simp [hy]))

/-- `foldlM` over a mapped list. -/
theorem foldlM_map {α γ β : Type} (g : α → γ) (f : β → γ → Except Err β) :
    ∀ (l : List α) (b : β), (l.map g).foldlM f b = l.foldlM (fun y x => f y (g x)) b := by
  intro l
  induction l with
  | nil => intro b; rfl
  | cons x l ih =>
    intro b
    rw [List.map_cons, List.foldlM_cons, List.foldlM_cons]
    cases f b (g x) with
    | error e => rfl
    | ok b' => rw [except_ok_bind, except_ok_bind, ih]

end Matrix

/-! ### PCA (claims C6 and C10)

The PCA engine.  `Math.random` seeds of each deflation round's power
iteration become `seedFn i`; `Math.sqrt` becomes `sqrtFn`; the default
arguments of `A.powerIteration()` (1000 iterations, tolerance `1e-10`)
are passed explicitly. -/

/-- PCA instance state: `components`, `mean`, `explainedVariance`,
`explainedVarianceRatio` (all `null`/empty before `fit`). -/
structure PCAState where
  components : Option Matrix
  mean : Option Matrix
  explainedVariance : List ℚ
  explainedVarShare : List ℚ

/-- A freshly constructed `new PCA()`. -/
def pcaInit : PCAState := ⟨none, none, [], []⟩

/-- `_computeMean(X)`: column means through checked `get`s, then
`new Matrix([means])`. -/
def computeMean (X : Matrix) : Except Err Matrix := do
  let means ← (List.range X.cols).mapM fun j => do
    let s ← (List.range X.rows).foldlM (fun acc i => do
      let v ← X.get i j
      pure (acc + v)) (0 : ℚ)
    pure (s / (X.rows : ℚ))
  Matrix.matrixNew [means]

/-- `_centerData(X, mean)`: clone, then
`result.set(i, j, X.get(i,j) - mean.get(0,j))` over the rectangle. -/
def centerData (X mean : Matrix) : Except Err Matrix :=
  (List.range X.rows).foldlM (fun acc i =>
    (List.range X.cols).foldlM (fun acc2 j => do
      let a ← X.get i j
      let b ← mean.get 0 j
      acc2.set i j (a - b)) acc) X.clone

/-- `_computeCovariance(X)`: `XᵀX / (n − 1)`; `divideScalar` raises
`DivisionByZero` when `X.rows − 1 = 0`. -/
def computeCovariance (X : Matrix) : Except Err Matrix := do
  let cov ← X.transpose.multiply X
  cov.divideScalar ((X.rows : ℚ) - 1)

/-- The deflation loop of `_computeEigenDecomposition`: `n` rounds of
`A.powerIteration()` (default arguments), eigenvector row extraction
through checked `get`s, and deflation `A ← A − λ·v·vᵀ` on every round
but the last. -/
def eigLoop (sqrtFn : ℚ → ℚ) (seedFn : ℕ → ℕ → ℚ) (n : ℕ) :
    ℕ → ℕ → Matrix → List ℚ → List (List ℚ) →
    Except Err (List ℚ × List (List ℚ))
  | 0, _, _, vals, vecs => .ok (vals, vecs)
  | fuel + 1, i, A, vals, vecs => do
    let r ← Matrix.powerIteration sqrtFn A (seedFn i) 1000 (1 / 10 ^ 10)
    let row ← (List.range n).mapM fun j => r.eigenvector.get j 0
    if i < n - 1 then
      let outer ← r.eigenvector.multiply r.eigenvector.transpose
      let lam ← outer.multiplyScalar r.eigenvalue
      let A' ← A.subtract lam
      eigLoop sqrtFn seedFn n fuel (i + 1) A' (vals ++ [r.eigenvalue]) (vecs ++ [row])
    else
      eigLoop sqrtFn seedFn n fuel (i + 1) A (vals ++ [r.eigenvalue]) (vecs ++ [row])

/-- `_computeEigenDecomposition(covariance)`. -/
def computeEigenDecomposition (sqrtFn : ℚ → ℚ) (seedFn : ℕ → ℕ → ℚ)
    (cov : Matrix) : Except Err (List ℚ × Matrix) := do
  let p ← eigLoop sqrtFn seedFn cov.rows cov.rows 0 cov.clone [] []
  let vecs ← Matrix.matrixNew p.2
  pure (p.1, vecs)

/-- Insert into a descending-ordered list, after any equal keys. -/
def insertDesc (x : ℚ × ℕ) : List (ℚ × ℕ) → List (ℚ × ℕ)
  | [] => [x]
  | y :: ys => if y.1 < x.1 then x :: y :: ys else y :: insertDesc x ys

/-- The JS `sort((a, b) => b.val - a.val)`: a stable descending sort on
`(value, index)` pairs, modelled as stable insertion sort. -/
def sortDesc (l : List (ℚ × ℕ)) : List (ℚ × ℕ) :=
  l.foldl (fun acc x => insertDesc x acc) []

/-- `_sortEigenvectors(eigenvectors, sortedIndices)`: column gather
through checked `get`s, then `new Matrix(...)`. -/
def sortEigenvectors (eigenvectors : Matrix) (sortedIndices : List ℕ) :
    Except Err Matrix := do
  let rows ← sortedIndices.mapM fun idx =>
    (List.range eigenvectors.rows).mapM fun i => eigenvectors.get i idx
  Matrix.matrixNew rows

/-- JS `x || d` on an optional count: `undefined` and the falsy `0` both
give the default. -/
def jsOrNat (o : Option ℕ) (d : ℕ) : ℕ :=
  match o with
  | some k => if k = 0 then d else k
  | none => d

/-- `PCA.fit(X, nComponents?)`. -/
def PCA.fit (sqrtFn : ℚ → ℚ) (seedFn : ℕ → ℕ → ℚ) (X : Matrix)
    (nComponents : Option ℕ) : Except Err PCAState :=
  if X.rows < X.cols then .error .insufficientSamples
  else do
    let mean ← computeMean X
    let XC ← centerData X mean
    let cov ← computeCovariance XC
    let ed ← computeEigenDecomposition sqrtFn seedFn cov
    let eigenvalues := ed.1
    let sortedIndices := (sortDesc (eigenvalues.enum.map fun p => (p.2, p.1))).map (·.2)
    let sortedEigenvalues := sortedIndices.map fun idx => eigenvalues.getD idx 0
    let sortedEigenvectors ← sortEigenvectors ed.2 sortedIndices
    let totalVariance := sortedEigenvalues.sum
    let explained := sortedEigenvalues.take (jsOrNat nComponents sortedEigenvalues.length)
    let shares := explained.map fun v => v / totalVariance
    let numComponents := jsOrNat nComponents (min X.cols sortedEigenvalues.length)
    let componentsT := sortedEigenvectors.transpose
    let componentData ← (List.range numComponents).mapM fun i => componentsT.getRow i
    let components ← Matrix.matrixNew componentData
    pure ⟨some components, some mean, explained, shares⟩

/-- `PCA.transform(X)`: `NotFitted` before `fit`, `FeatureMismatch` on a
column-count mismatch with the stored mean, else centering followed by
projection onto the stored components. -/
def PCA.transform (st : PCAState) (X : Matrix) : Except Err Matrix :=
  match st.components, st.mean with
  | some C, some mean =>
    if X.cols ≠ mean.cols then .error .featureMismatch
    else do
      let XC ← centerData X mean
      XC.multiply C.transpose
  | _, _ => .error .notFitted

/-- C10: `PCA.fit` on any 1×1 matrix passes the sample-count check
(`rows < cols` is false for 1 = 1) but fails with `DivisionByZero`: the
covariance step divides by `X.rows − 1 = 0`.  Holds for every entry
value, every seed/sqrt abstraction and every `nComponents` argument. -/
theorem pca_fit_one_by_one_divide_by_zero (q : ℚ) (sqrtFn : ℚ → ℚ)
    (seedFn : ℕ → ℕ → ℚ) (nComp : Option ℕ) :
    PCA.fit sqrtFn seedFn ⟨[[q]]⟩ nComp = .error .divisionByZero := by
  have h1 : computeMean ⟨[[q]]⟩ = .ok ⟨[[q]]⟩ := by
    norm_num [computeMean, Matrix.get, Matrix.rows, Matrix.cols, Matrix.entry,
      Matrix.matrixNew, List.range_succ, List.mapM.loop, List.foldlM, except_ok_bind]
  have h2 : centerData ⟨[[q]]⟩ ⟨[[q]]⟩ = .ok ⟨[[0]]⟩ := by
    norm_num [centerData, Matrix.get, Matrix.set, Matrix.clone, Matrix.rows, Matrix.cols,
      Matrix.entry, List.range_succ, List.foldlM, except_ok_bind, List.set]
  have h3 : computeCovariance ⟨[[(0 : ℚ)]]⟩ = .error .divisionByZero := by
    norm_num [computeCovariance, Matrix.transpose, Matrix.transposeData, Matrix.multiply,
      Matrix.mulData, Matrix.divideScalar, Matrix.rows, Matrix.cols, Matrix.entry,
      List.range_succ, except_ok_bind]
  rw [PCA.fit, if_neg (by norm_num [Matrix.rows, Matrix.cols])]
  simp only [h1, except_ok_bind, h2, h3, except_error_bind]

/-- Pointwise specification of `_centerData` on a well-formed input
whose column count the mean covers: it succeeds and subtracts the mean
row entrywise. -/
theorem centerData_spec {X mean : Matrix} (hX : X.WF) (hm : 0 < mean.rows)
    (hc : X.cols ≤ mean.cols) :
    ∃ XC, centerData X mean = .ok XC ∧ XC.WF ∧ XC.rows = X.rows ∧ XC.cols = X.cols ∧
      ∀ i j, i < X.rows → j < X.cols →
        XC.entry i j = X.entry i j - mean.entry 0 j := by
  have main : ∀ (is : List ℕ) (M : Matrix), M.WF → M.rows = X.rows → M.cols = X.cols →
      (∀ i ∈ is, i < X.rows) →
      ∃ M', (is.foldlM (fun acc i =>
          (List.range X.cols).foldlM (fun acc2 j => do
            let a ← X.get i j
            let b ← mean.get 0 j
            acc2.set i j (a - b)) acc) M : Except Err Matrix) = .ok M' ∧
        M'.WF ∧ M'.rows = X.rows ∧ M'.cols = X.cols ∧
        ∀ i j, M'.entry i j =
          if i ∈ is ∧ j < X.cols then X.entry i j - mean.entry 0 j else M.entry i j := by
    intro is
    induction is with
    | nil =>
      intro M hwf hr hcc _
      exact ⟨M, rfl, hwf, hr, hcc, fun i j => by simp⟩
    | cons i0 is ih =>
      intro M hwf hr hcc hin
      have hi0 : i0 < X.rows := hin i0 (by simp)
      have hcong : ∀ acc : Matrix,
          ((List.range X.cols).foldlM (fun acc2 j => do
            let a ← X.get i0 j
            let b ← mean.get 0 j
            acc2.set i0 j (a - b)) acc : Except Err Matrix) =
          (List.range X.cols).foldlM
            (fun acc2 j => acc2.set i0 j (X.entry i0 j - mean.entry 0 j)) acc := by
        intro acc
        refine Matrix.foldlM_congr (List.range X.cols) acc (fun j hj y => ?_)
        rw [List.mem_range] at hj
        rw [Matrix.get, if_pos ⟨hi0, hj⟩, except_ok_bind, Matrix.get,
          if_pos ⟨hm, lt_of_lt_of_le hj hc⟩, except_ok_bind]
      have hpairs :
          ((List.range X.cols).foldlM
            (fun acc2 j => acc2.set i0 j (X.entry i0 j - mean.entry 0 j)) M :
              Except Err Matrix) =
          (((List.range X.cols).map fun j => (i0, j)).foldlM
            (fun acc2 p => acc2.set p.1 p.2 (X.entry p.1 p.2 - mean.entry 0 p.2)) M) := by
        rw [Matrix.foldlM_map]
      obtain ⟨M₁, hfold₁, hwf₁, hr₁, hc₁, hentry₁⟩ :=
        Matrix.foldlM_set_spec (fun i j => X.entry i j - mean.entry 0 j)
          ((List.range X.cols).map fun j => (i0, j)) M hwf (fun p hp => by
            rw [List.mem_map] at hp
            obtain ⟨j, hj, rfl⟩ := hp
            rw [List.mem_range] at hj
            exact ⟨by rw [hr]; exact hi0, by rw [hcc]; exact hj⟩)
      obtain ⟨M', hfold', hwf', hr', hc', hentry'⟩ := ih M₁ hwf₁ (by rw [hr₁, hr])
        (by rw [hc₁, hcc]) (fun i hi => hin i (by simp [hi]))
      refine ⟨M', ?_, hwf', hr', hc', ?_⟩
      · rw [List.foldlM_cons, hcong M, hpairs, hfold₁, except_ok_bind, hfold']
      · intro i j
        rw [hentry' i j, hentry₁ i j]
        by_cases his : i ∈ is ∧ j < X.cols
        · rw [if_pos his, if_pos ⟨by simp [his.1], his.2⟩]
        · rw [if_neg his]
          by_cases hmem : (i, j) ∈ (List.range X.cols).map fun j => (i0, j)
          · have hmem' := hmem
            rw [List.mem_map] at hmem'
            obtain ⟨j', hj', hjj⟩ := hmem'
            rw [List.mem_range] at hj'
            obtain ⟨h1, h2⟩ : i0 = i ∧ j' = j := by
              rw [Prod.ext_iff] at hjj; exact hjj
            rw [if_pos hmem, if_pos ⟨by rw [← h1]; simp, by rw [← h2]; exact hj'⟩]
          · rw [if_neg hmem, if_neg (fun hcons => ?_)]
            obtain ⟨hcons1, hcons2⟩ := hcons
            rcases List.mem_cons.mp hcons1 with rfl | hmem2
            · refine hmem ?_
              rw [List.mem_map]
              exact ⟨j, by rw [List.mem_range]; exact hcons2, rfl⟩
            · exact his ⟨hmem2, hcons2⟩
  obtain ⟨XC, hfold, hwf', hr', hc', hentry⟩ := main (List.range X.rows) X.clone hX rfl rfl
    (fun i hi => by rw [List.mem_range] at hi; exact hi)
  refine ⟨XC, hfold, hwf', hr', hc', fun i j hi hj => ?_⟩
  rw [hentry i j, if_pos ⟨by rw [List.mem_range]; exact hi, hj⟩]

/-- C6: `transform` fails with `NotFitted` whenever `components` or
`mean` is unset (in particular on a fresh instance, before `fit`);
on a fitted state it fails with `FeatureMismatch` exactly when `X`'s
column count differs from the stored mean's, and otherwise centers `X`
with the stored mean (entrywise subtraction, proved pointwise) and
projects the centered data onto the stored components
(`XC.multiply(components.transpose())`); and every successful `fit`
stores both a mean and a components matrix. -/
theorem pca_transform_spec :
    (∀ (st : PCAState) (X : Matrix), (st.components = none ∨ st.mean = none) →
      PCA.transform st X = .error .notFitted) ∧
    (∀ (st : PCAState) (C mean X : Matrix),
      st.components = some C → st.mean = some mean → X.WF → 0 < mean.rows →
      (X.cols ≠ mean.cols → PCA.transform st X = .error .featureMismatch) ∧
      (X.cols = mean.cols → ∃ XC, centerData X mean = .ok XC ∧
        XC.rows = X.rows ∧ XC.cols = X.cols ∧
        (∀ i j, i < X.rows → j < X.cols →
          XC.entry i j = X.entry i j - mean.entry 0 j) ∧
        PCA.transform st X = XC.multiply C.transpose)) ∧
    (∀ (sqrtFn : ℚ → ℚ) (seedFn : ℕ → ℕ → ℚ) (X : Matrix) (nComp : Option ℕ)
      (st' : PCAState), PCA.fit sqrtFn seedFn X nComp = .ok st' →
      ∃ C mean, st'.components = some C ∧ st'.mean = some mean) := by
  refine ⟨?_, ?_, ?_⟩
  · rintro st X (hc | hm)
    · rw [PCA.transform, hc]
    · rw [PCA.transform, hm]
      cases st.components <;> rfl
  · intro st C mean X hC hm hX hmr
    constructor
    · intro hne
      rw [PCA.transform, hC, hm]
      simp only
      rw [if_pos hne]
    · intro heq
      obtain ⟨XC, hcd, hwf', hr', hc', hentry⟩ :=
        centerData_spec hX hmr (le_of_eq heq)
      refine ⟨XC, hcd, hr', hc', hentry, ?_⟩
      rw [PCA.transform, hC, hm]
      simp only
      rw [if_neg (by simp [heq]), hcd, except_ok_bind]
  · intro sqrtFn seedFn X nComp st' h
    rw [PCA.fit] at h
    split at h
    · cases h
    · simp only [except_bind_ok, except_pure_ok] at h
      obtain ⟨mean, -, XC, -, cov, -, ed, -, sev, -, comps, -, C2, -, hfin⟩ := h
      exact ⟨C2, mean, by rw [← hfin], by rw [← hfin]⟩

/-- Witness for C6: a fresh instance rejects `transform`; a concrete
two-sample fit succeeds (so the fitted-state hypotheses are
satisfiable), stores mean `[[1]]` and components `[[1]]`, and `transform`
on `[[3]]` then returns the centered projection `[[2]]`. -/
theorem pca_transform_spec_witness :
    PCA.transform pcaInit ⟨[[1]]⟩ = .error .notFitted ∧
    PCA.fit (fun q => if q = 4 then 2 else if q = 1 then 1 else 0) (fun _ _ => 1)
      ⟨[[0], [2]]⟩ none = .ok ⟨some ⟨[[1]]⟩, some ⟨[[1]]⟩, [2], [1]⟩ ∧
    (∀ st', PCA.fit (fun q => if q = 4 then 2 else if q = 1 then 1 else 0) (fun _ _ => 1)
        ⟨[[0], [2]]⟩ none = .ok st' →
      ∃ C mean, st'.components = some C ∧ st'.mean = some mean) ∧
    PCA.transform ⟨some ⟨[[1]]⟩, some ⟨[[1]]⟩, [2], [1]⟩ ⟨[[3]]⟩ = .ok ⟨[[2]]⟩ := by
  have hloop2 : powerLoop (fun q => if q = 4 then 2 else if q = 1 then 1 else 0)
      ⟨[[2]]⟩ (1 / 10000000000) 999 1 ⟨[[1]]⟩ 2 2 = .ok (2, ⟨[[1]]⟩, 2, true) := by
    rw [show (999 : ℕ) = 998 + 1 from rfl, powerLoop]
    norm_num [Matrix.multiply, Matrix.mulData, Matrix.rows, Matrix.cols, Matrix.entry,
      List.range_succ]
  have hloop1 : powerLoop (fun q => if q = 4 then 2 else if q = 1 then 1 else 0)
      ⟨[[2]]⟩ (1 / 10000000000) 1000 0 ⟨[[1]]⟩ 0 0 = .ok (2, ⟨[[1]]⟩, 2, true) := by
    rw [show (1000 : ℕ) = 999 + 1 from rfl, powerLoop]
    norm_num [Matrix.multiply, Matrix.mulData, Matrix.rows, Matrix.cols, Matrix.entry,
      List.range_succ, hloop2]
  have hpi : Matrix.powerIteration (fun q => if q = 4 then 2 else if q = 1 then 1 else 0)
      ⟨[[2]]⟩ (fun _ => 1) 1000 (1 / 10000000000) = .ok ⟨2, ⟨[[1]]⟩⟩ := by
    rw [Matrix.powerIteration]
    norm_num [Matrix.normalizeVector, Matrix.isSquare, Matrix.rows, Matrix.cols,
      Matrix.entry, List.range_succ, hloop1]
  have heig : eigLoop (fun q => if q = 4 then 2 else if q = 1 then 1 else 0)
      (fun _ _ => 1) 1 1 0 ⟨[[2]]⟩ [] [] = .ok ([2], [[1]]) := by
    rw [show (1 : ℕ) = 0 + 1 from rfl, eigLoop]
    norm_num [hpi, Matrix.get, Matrix.rows, Matrix.cols, Matrix.entry, List.range_succ,
      List.mapM.loop, except_ok_bind, eigLoop]
  have heigdec : computeEigenDecomposition
      (fun q => if q = 4 then 2 else if q = 1 then 1 else 0) (fun _ _ => 1) ⟨[[2]]⟩ =
      .ok ([2], ⟨[[1]]⟩) := by
    rw [computeEigenDecomposition]
    norm_num [Matrix.rows, Matrix.clone, heig, Matrix.matrixNew, except_ok_bind]
  have hmean : computeMean ⟨[[0], [2]]⟩ = .ok ⟨[[1]]⟩ := by
    norm_num [computeMean, Matrix.get, Matrix.rows, Matrix.cols, Matrix.entry,
      Matrix.matrixNew, List.range_succ, List.mapM.loop, List.foldlM, except_ok_bind]
  have hcenter : centerData ⟨[[0], [2]]⟩ ⟨[[1]]⟩ = .ok ⟨[[-1], [1]]⟩ := by
    norm_num [centerData, Matrix.get, Matrix.set, Matrix.clone, Matrix.rows, Matrix.cols,
      Matrix.entry, List.range_succ, List.foldlM, except_ok_bind, List.set]
  have hcov : computeCovariance ⟨[[-1], [1]]⟩ = .ok ⟨[[2]]⟩ := by
    norm_num [computeCovariance, Matrix.transpose, Matrix.transposeData, Matrix.multiply,
      Matrix.mulData, Matrix.divideScalar, Matrix.divData, Matrix.rows, Matrix.cols,
      Matrix.entry, List.range_succ, except_ok_bind]
  have hsev : sortEigenvectors ⟨[[1]]⟩ [0] = .ok ⟨[[1]]⟩ := by
    norm_num [sortEigenvectors, Matrix.get, Matrix.rows, Matrix.cols, Matrix.entry,
      Matrix.matrixNew, List.range_succ, List.mapM.loop, except_ok_bind]
  have hfit : PCA.fit (fun q => if q = 4 then 2 else if q = 1 then 1 else 0) (fun _ _ => 1)
      ⟨[[0], [2]]⟩ none = .ok ⟨some ⟨[[1]]⟩, some ⟨[[1]]⟩, [2], [1]⟩ := by
    rw [PCA.fit, if_neg (by norm_num [Matrix.rows, Matrix.cols])]
    simp only [hmean, except_ok_bind, hcenter, hcov, heigdec]
    norm_num [sortDesc, insertDesc, jsOrNat, hsev, Matrix.getRow, Matrix.matrixNew,
      Matrix.transpose, Matrix.transposeData, Matrix.rows, Matrix.cols, Matrix.entry,
      List.range_succ, List.mapM.loop, except_ok_bind]
  refine ⟨pca_transform_spec.1 pcaInit ⟨[[1]]⟩ (Or.inl rfl), hfit,
    fun st' h => pca_transform_spec.2.2 _ _ _ _ _ h, ?_⟩
  rw [PCA.transform]
  have hcenter2 : centerData ⟨[[3]]⟩ ⟨[[1]]⟩ = .ok ⟨[[2]]⟩ := by
    norm_num [centerData, Matrix.get, Matrix.set, Matrix.clone, Matrix.rows, Matrix.cols,
      Matrix.entry, List.range_succ, List.foldlM, except_ok_bind, List.set]
  norm_num [hcenter2, Matrix.multiply, Matrix.mulData, Matrix.transpose,
    Matrix.transposeData, Matrix.rows, Matrix.cols, Matrix.entry, List.range_succ,
    except_ok_bind]

/-! ### SVD (claim C5)

`SVD.decompose` via power iteration on `AᵀA` and deflation.  The
`_powerIteration` of `svd.ts` is line-for-line the loop of
`Matrix.powerIteration` (its callers pass only the square `AᵀA`, for
which the two loop bounds `v.rows` and `A.rows` coincide), with the seed
normalised inline: a zero seed norm makes every quotient `0/0 = NaN` and
the first `set` throw (`invalidValue`), with no explicit zero-vector
guard.  The embedding carries a specification-only trace of each
round's computed `(σ, v)` pair; `SVD.decompose` is its projection. -/

/-- `SVD._powerIteration(A, maxIter, tol)`. -/
def svdPowerIteration (sqrtFn : ℚ → ℚ) (A : Matrix) (seedFn : ℕ → ℚ)
    (maxIter : ℕ) (tol : ℚ) : Except Err EigResult :=
  let norm := sqrtFn (((List.range A.cols).map fun i => seedFn i * seedFn i).sum)
  if norm = 0 then .error .invalidValue
  else
    match powerLoop sqrtFn A tol maxIter 0
        ⟨(List.range A.cols).map fun i => [seedFn i / norm]⟩ 0 0 with
    | .error e => .error e
    | .ok r => .ok ⟨r.1, r.2.1⟩

/-- The decompose round loop.  `m`, `n` are the original `A.rows`,
`A.cols` captured before the loop (deflation rebinds `A` but not them);
the last component is the specification trace of `(σ, v)` per round. -/
def svdLoop (sqrtFn : ℚ → ℚ) (seedFn : ℕ → ℕ → ℚ) (maxIter : ℕ) (tol : ℚ)
    (m n : ℕ) : ℕ → ℕ → Matrix → Matrix → Matrix → Matrix →
    Except Err (Matrix × Matrix × Matrix × List (ℚ × Matrix))
  | 0, _, _, U, S, VT => .ok (U, S, VT, [])
  | fuel + 1, i, A, U, S, VT => do
    let ATA ← A.transpose.multiply A
    let r ← svdPowerIteration sqrtFn ATA (seedFn i) maxIter tol
    let sigma := sqrtFn (max 0 r.eigenvalue)
    let S' ← S.set i i sigma
    let VT' ← (List.range n).foldlM (fun M j => do
      let x ← r.eigenvector.get j 0
      M.set i j x) VT
    if sigma > tol then
      let Av ← A.multiply r.eigenvector
      let u ← Av.divideScalar sigma
      let U' ← (List.range m).foldlM (fun M j => do
        let x ← u.get j 0
        M.set j i x) U
      let outer ← u.multiply r.eigenvector.transpose
      let defl ← outer.multiplyScalar sigma
      let A' ← A.subtract defl
      let rest ← svdLoop sqrtFn seedFn maxIter tol m n fuel (i + 1) A' U' S' VT'
      pure (rest.1, rest.2.1, rest.2.2.1, (sigma, r.eigenvector) :: rest.2.2.2)
    else
      let U' ← (List.range m).foldlM (fun M j =>
        M.set j i (if j = i then (1 : ℚ) else 0)) U
      let rest ← svdLoop sqrtFn seedFn maxIter tol m n fuel (i + 1) A U' S' VT'
      pure (rest.1, rest.2.1, rest.2.2.1, (sigma, r.eigenvector) :: rest.2.2.2)

/-- `SVD.decompose(A, maxIterations, tolerance)` with the specification
trace. -/
def SVD.decomposeT (sqrtFn : ℚ → ℚ) (seedFn : ℕ → ℕ → ℚ) (A : Matrix)
    (maxIter : ℕ) (tol : ℚ) :
    Except Err (Matrix × Matrix × Matrix × List (ℚ × Matrix)) := do
  let U ← Matrix.zeros A.rows (min A.rows A.cols)
  let S ← Matrix.zeros (min A.rows A.cols) (min A.rows A.cols)
  let VT ← Matrix.zeros (min A.rows A.cols) A.cols
  svdLoop sqrtFn seedFn maxIter tol A.rows A.cols (min A.rows A.cols) 0 A U S VT

/-- `SVD.decompose` as observable from the instance: `(U, Σ, VT)`. -/
def SVD.decompose (sqrtFn : ℚ → ℚ) (seedFn : ℕ → ℕ → ℚ) (A : Matrix)
    (maxIter : ℕ) (tol : ℚ) : Except Err (Matrix × Matrix × Matrix) :=
  (SVD.decomposeT sqrtFn seedFn A maxIter tol).map fun r => (r.1, r.2.1, r.2.2.1)

namespace Matrix

theorem get_ok_inv {A : Matrix} {i j : ℕ} {x : ℚ} (h : A.get i j = .ok x) :
    x = A.entry i j ∧ i < A.rows ∧ j < A.cols := by
  rw [get] at h
  split at h
  case isTrue hc =>
    cases h
    exact ⟨rfl, hc⟩
  case isFalse => cases h

theorem set_ok_bounds {A A' : Matrix} {i j : ℕ} {v : ℚ} (h : A.set i j v = .ok A') :
    i < A.rows ∧ j < A.cols := by
  rw [set] at h
  split at h
  case isTrue hc => exact hc
  case isFalse => cases h

/-- A successful fold of (possibly fallible) reads followed by `set`s at
pairwise distinct targets: shape and well-formedness are preserved, each
read succeeded, written entries carry the read values, untouched entries
are unchanged. -/
theorem foldlM_getset_ok_spec (g : ℕ → Except Err ℚ) (ρ κ : ℕ → ℕ) :
    ∀ (n : ℕ) (M M' : Matrix), M.WF →
      (∀ a b, a < n → b < n → ρ a = ρ b → κ a = κ b → a = b) →
      ((List.range n).foldlM (fun acc j => do
          let x ← g j
          acc.set (ρ j) (κ j) x) M : Except Err Matrix) = .ok M' →
      M'.WF ∧ M'.rows = M.rows ∧ M'.cols = M.cols ∧
      (∀ j, j < n → ∃ x, g j = .ok x) ∧
      (∀ j x, j < n → g j = .ok x → M'.entry (ρ j) (κ j) = x) ∧
      (∀ a b, (∀ j, j < n → ¬(ρ j = a ∧ κ j = b)) → M'.entry a b = M.entry a b) := by
  intro n
  induction n with
  | zero =>
    intro M M' hwf _ h
    cases h
    exact ⟨hwf, rfl, rfl, fun j hj => by omega, fun j x hj => by omega, fun a b _ => rfl⟩
  | succ n ih =>
    intro M M' hwf hinj h
    rw [List.range_succ, List.foldlM_append, except_bind_ok] at h
    obtain ⟨M₁, hfold₁, hlast⟩ := h
    obtain ⟨hwf₁, hr₁, hc₁, hex₁, hvals₁, hframe₁⟩ := ih M M₁ hwf
      (fun a b ha hb => hinj a b (by omega) (by omega)) hfold₁
    rw [List.foldlM_cons] at hlast
    rw [except_bind_ok] at hlast
    obtain ⟨M₂, hbody, hlast⟩ := hlast
    rw [List.foldlM_nil, except_pure_ok] at hlast
    subst hlast
    rw [except_bind_ok] at hbody
    obtain ⟨x, hgx, hset⟩ := hbody
    obtain ⟨hρ, hκ⟩ := set_ok_bounds hset
    obtain ⟨M₂', hset', hwf₂, hr₂, hc₂, hentry₂⟩ := set_spec hwf₁ hρ hκ x
    rw [hset] at hset'
    cases hset'
    refine ⟨hwf₂, by rw [hr₂, hr₁], by rw [hc₂, hc₁], ?_, ?_, ?_⟩
    · intro j hj
      rcases Nat.lt_succ_iff_lt_or_eq.mp hj with hj' | rfl
      · exact hex₁ j hj'
      · exact ⟨x, hgx⟩
    · intro j y hj hgj
      rcases Nat.lt_succ_iff_lt_or_eq.mp hj with hj' | rfl
      · rw [hentry₂]
        rw [if_neg (fun hc => ?_)]
        · exact hvals₁ j y hj' hgj
        · exact absurd (hinj j n (by omega) (by omega) hc.1 hc.2) (by omega)
      · rw [hgx] at hgj
        cases hgj
        rw [hentry₂, if_pos ⟨rfl, rfl⟩]
    · intro a b hnone
      rw [hentry₂, if_neg (fun hc => hnone n (by omega) ⟨hc.1.symm, hc.2.symm⟩)]
      exact hframe₁ a b (fun j hj => hnone j (by omega))

theorem zeros_ok_inv {r c : ℕ} {Z : Matrix} (h : zeros r c = .ok Z) :
    Z.WF ∧ Z.rows = r ∧ Z.cols = c := by
  rw [zeros] at h
  split at h
  case isTrue => cases h
  case isFalse hc =>
    cases h
    push_neg at hc
    obtain ⟨hr, hcc⟩ := hc
    have hrows : (Matrix.mk (zerosData r c)).rows = r := by
      simp [rows, zerosData]
    have hcols : (Matrix.mk (zerosData r c)).cols = c := by
      rcases r with - | r
      · omega
      · simp [cols, zerosData, List.range_succ_eq_map]
    refine ⟨⟨?_, ?_, ?_⟩, hrows, hcols⟩
    · simp [zerosData]
      omega
    · rw [hcols]
      omega
    · intro row hrow
      rw [hcols]
      rw [zerosData, List.mem_map] at hrow
      obtain ⟨a, -, heq⟩ := hrow
      rw [← heq]
      simp

end Matrix

/-- Full characterisation of a successful `svdLoop` run starting at
column `i` with `fuel` rounds left: shapes are preserved, the trace has
one `(σ, v)` entry per round, entries of `U`/`Σ`/`VT` outside the
visited columns/diagonal/rows are untouched, and for each round `t` the
diagonal of `Σ` holds `σₜ`, row `i+t` of `VT` holds `vₜ`, and — the
fallback of claim C5 — whenever `σₜ ≤ tolerance`, column `i+t` of `U`
is the standard basis vector `e (i+t)`. -/
theorem svdLoop_spec (sqrtFn : ℚ → ℚ) (seedFn : ℕ → ℕ → ℚ) (maxIter : ℕ) (tol : ℚ)
    (m n : ℕ) :
    ∀ (fuel i : ℕ) (A U S VT : Matrix)
      (out : Matrix × Matrix × Matrix × List (ℚ × Matrix)),
      U.WF → S.WF → VT.WF →
      svdLoop sqrtFn seedFn maxIter tol m n fuel i A U S VT = .ok out →
      (out.1.WF ∧ out.1.rows = U.rows ∧ out.1.cols = U.cols) ∧
      (out.2.1.WF ∧ out.2.1.rows = S.rows ∧ out.2.1.cols = S.cols) ∧
      (out.2.2.1.WF ∧ out.2.2.1.rows = VT.rows ∧ out.2.2.1.cols = VT.cols) ∧
      out.2.2.2.length = fuel ∧
      (∀ a b, (∀ t, t < fuel → b ≠ i + t) → out.1.entry a b = U.entry a b) ∧
      (∀ a b, (∀ t, t < fuel → ¬(a = i + t ∧ b = i + t)) →
        out.2.1.entry a b = S.entry a b) ∧
      (∀ a b, (∀ t, t < fuel → a ≠ i + t) → out.2.2.1.entry a b = VT.entry a b) ∧
      (∀ t, t < fuel →
        out.2.1.entry (i + t) (i + t) = (out.2.2.2.getD t (0, ⟨[]⟩)).1 ∧
        (∀ j, j < n →
          out.2.2.1.entry (i + t) j = (out.2.2.2.getD t (0, ⟨[]⟩)).2.entry j 0) ∧
        ((out.2.2.2.getD t (0, ⟨[]⟩)).1 ≤ tol →
          ∀ j, j < m → out.1.entry j (i + t) = if j = i + t then 1 else 0)) := by
  intro fuel
  induction fuel with
  | zero =>
    intro i A U S VT out hU hS hVT h
    rw [svdLoop] at h
    cases h
    exact ⟨⟨hU, rfl, rfl⟩, ⟨hS, rfl, rfl⟩, ⟨hVT, rfl, rfl⟩, rfl,
      fun a b _ => rfl, fun a b _ => rfl, fun a b _ => rfl,
      fun t ht => absurd ht (by omega)⟩
  | succ fuel ih =>
    intro i A U S VT out hU hS hVT h
    rw [svdLoop] at h
    simp only [except_bind_ok, except_pure_ok] at h
    obtain ⟨ATA, hATA, r, hr, S', hS'set, VT', hVTfold, h⟩ := h
    obtain ⟨hiSr, hiSc⟩ := Matrix.set_ok_bounds hS'set
    obtain ⟨S'', hset'', hwfS', hrS', hcS', hentS'⟩ :=
      Matrix.set_spec hS hiSr hiSc (sqrtFn (max 0 r.eigenvalue))
    rw [hS'set] at hset''
    injection hset'' with hSS
    subst hSS
    obtain ⟨hwfVT', hrVT', hcVT', hexVT', hvalVT', hframeVT'⟩ :=
      Matrix.foldlM_getset_ok_spec (fun j => r.eigenvector.get j 0)
        (fun _ => i) (fun j => j) n VT VT' hVT
        (fun a b _ _ _ h2 => h2) hVTfold
    by_cases hσ : sqrtFn (max 0 r.eigenvalue) > tol
    · rw [if_pos hσ] at h
      simp only [except_bind_ok, except_pure_ok] at h
      obtain ⟨Av, hAv, u, hu, U', hUfold, outer, houter, defl, hdefl, A', hA', rest,
        hrec, htup⟩ := h
      obtain ⟨hwfU', hrU', hcU', hexU', hvalU', hframeU'⟩ :=
        Matrix.foldlM_getset_ok_spec (fun j => u.get j 0)
          (fun j => j) (fun _ => i) m U U' hU
          (fun a b _ _ h1 _ => h1) hUfold
      obtain ⟨⟨hwfUf, hrUf, hcUf⟩, ⟨hwfSf, hrSf, hcSf⟩, ⟨hwfVf, hrVf, hcVf⟩,
        hlen, hfrU, hfrS, hfrV, hper⟩ :=
        ih (i + 1) A' U' S' VT' rest hwfU' hwfS' hwfVT' hrec
      subst htup
      refine ⟨⟨hwfUf, hrUf.trans hrU', hcUf.trans hcU'⟩,
        ⟨hwfSf, hrSf.trans hrS', hcSf.trans hcS'⟩,
        ⟨hwfVf, hrVf.trans hrVT', hcVf.trans hcVT'⟩,
        by simp [hlen], ?_, ?_, ?_, ?_⟩
      · intro a b hb
        have h1 : rest.1.entry a b = U'.entry a b :=
          hfrU a b (fun t ht => by have := hb (t + 1) (by omega); omega)
        have h2 : U'.entry a b = U.entry a b :=
          hframeU' a b (fun j hj hc => by have := hb 0 (by omega); omega)
        exact h1.trans h2
      · intro a b hab
        have h1 : rest.2.1.entry a b = S'.entry a b :=
          hfrS a b (fun t ht hc => hab (t + 1) (by omega) (by omega))
        have h2 : S'.entry a b = S.entry a b := by
          rw [hentS', if_neg (fun hc => hab 0 (by omega) (by omega))]
        exact h1.trans h2
      · intro a b ha
        have h1 : rest.2.2.1.entry a b = VT'.entry a b :=
          hfrV a b (fun t ht => by have := ha (t + 1) (by omega); omega)
        have h2 : VT'.entry a b = VT.entry a b :=
          hframeVT' a b (fun j hj hc => by have := ha 0 (by omega); omega)
        exact h1.trans h2
      · intro t ht
        rcases t with - | t'
        · refine ⟨?_, ?_, ?_⟩
          · have h1 : rest.2.1.entry (i + 0) (i + 0) = S'.entry (i + 0) (i + 0) :=
              hfrS (i + 0) (i + 0) (fun t' ht' => by omega)
            have h2 : S'.entry (i + 0) (i + 0) = sqrtFn (max 0 r.eigenvalue) := by
              rw [hentS', if_pos (by omega)]
            simp only [List.getD_cons_zero]
            exact h1.trans h2
          · intro j hj
            obtain ⟨x, hx⟩ := hexVT' j hj
            obtain ⟨hxval, -, -⟩ := Matrix.get_ok_inv hx
            have h1 : rest.2.2.1.entry (i + 0) j = VT'.entry (i + 0) j :=
              hfrV (i + 0) j (fun t' ht' => by omega)
            have h2 : VT'.entry i j = x := hvalVT' j x hj hx
            simp only [List.getD_cons_zero]
            rw [show i + 0 = i from rfl] at h1 ⊢
            rw [h1, h2, hxval]
          · intro hσle
            simp only [List.getD_cons_zero] at hσle
            exact absurd hσle (not_le.mpr hσ)
        · have hidx : i + (t' + 1) = (i + 1) + t' := by omega
          obtain ⟨hp1, hp2, hp3⟩ := hper t' (by omega)
          rw [hidx]
          simp only [List.getD_cons_succ]
          exact ⟨hp1, hp2, hp3⟩
    · rw [if_neg hσ] at h
      simp only [except_bind_ok, except_pure_ok] at h
      obtain ⟨U', hUfold, rest, hrec, htup⟩ := h
      have hUfold' : ((List.range m).foldlM (fun M j => do
          let x ← (pure (if j = i then (1 : ℚ) else 0) : Except Err ℚ)
          M.set j i x) U : Except Err Matrix) = .ok U' := hUfold
      obtain ⟨hwfU', hrU', hcU', hexU', hvalU', hframeU'⟩ :=
        Matrix.foldlM_getset_ok_spec (fun j => pure (if j = i then (1 : ℚ) else 0))
          (fun j => j) (fun _ => i) m U U' hU
          (fun a b _ _ h1 _ => h1) hUfold'
      obtain ⟨⟨hwfUf, hrUf, hcUf⟩, ⟨hwfSf, hrSf, hcSf⟩, ⟨hwfVf, hrVf, hcVf⟩,
        hlen, hfrU, hfrS, hfrV, hper⟩ :=
        ih (i + 1) A U' S' VT' rest hwfU' hwfS' hwfVT' hrec
      subst htup
      refine ⟨⟨hwfUf, hrUf.trans hrU', hcUf.trans hcU'⟩,
        ⟨hwfSf, hrSf.trans hrS', hcSf.trans hcS'⟩,
        ⟨hwfVf, hrVf.trans hrVT', hcVf.trans hcVT'⟩,
        by simp [hlen], ?_, ?_, ?_, ?_⟩
      · intro a b hb
        have h1 : rest.1.entry a b = U'.entry a b :=
          hfrU a b (fun t ht => by have := hb (t + 1) (by omega); omega)
        have h2 : U'.entry a b = U.entry a b :=
          hframeU' a b (fun j hj hc => by have := hb 0 (by omega); omega)
        exact h1.trans h2
      · intro a b hab
        have h1 : rest.2.1.entry a b = S'.entry a b :=
          hfrS a b (fun t ht hc => hab (t + 1) (by omega) (by omega))
        have h2 : S'.entry a b = S.entry a b := by
          rw [hentS', if_neg (fun hc => hab 0 (by omega) (by omega))]
        exact h1.trans h2
      · intro a b ha
        have h1 : rest.2.2.1.entry a b = VT'.entry a b :=
          hfrV a b (fun t ht => by have := ha (t + 1) (by omega); omega)
        have h2 : VT'.entry a b = VT.entry a b :=
          hframeVT' a b (fun j hj hc => by have := ha 0 (by omega); omega)
        exact h1.trans h2
      · intro t ht
        rcases t with - | t'
        · refine ⟨?_, ?_, ?_⟩
          · have h1 : rest.2.1.entry (i + 0) (i + 0) = S'.entry (i + 0) (i + 0) :=
              hfrS (i + 0) (i + 0) (fun t' ht' => by omega)
            have h2 : S'.entry (i + 0) (i + 0) = sqrtFn (max 0 r.eigenvalue) := by
              rw [hentS', if_pos (by omega)]
            simp only [List.getD_cons_zero]
            exact h1.trans h2
          · intro j hj
            obtain ⟨x, hx⟩ := hexVT' j hj
            obtain ⟨hxval, -, -⟩ := Matrix.get_ok_inv hx
            have h1 : rest.2.2.1.entry (i + 0) j = VT'.entry (i + 0) j :=
              hfrV (i + 0) j (fun t' ht' => by omega)
            have h2 : VT'.entry i j = x := hvalVT' j x hj hx
            rw [show i + 0 = i from rfl] at h1 ⊢
            simp only [List.getD_cons_zero]
            rw [h1, h2, hxval]
          · intro hσle j hj
            have h1 : rest.1.entry j (i + 0) = U'.entry j (i + 0) :=
              hfrU j (i + 0) (fun t' ht' => by omega)
            have h2 : U'.entry j i = if j = i then 1 else 0 :=
              hvalU' j (if j = i then 1 else 0) hj rfl
            rw [show i + 0 = i from rfl] at h1 ⊢
            rw [h1, h2]
        · have hidx : i + (t' + 1) = (i + 1) + t' := by omega
          obtain ⟨hp1, hp2, hp3⟩ := hper t' (by omega)
          rw [hidx]
          simp only [List.getD_cons_succ]
          exact ⟨hp1, hp2, hp3⟩

/-- C5: during `SVD.decompose(A, maxIterations, tolerance)` the loop
computes one `(σᵢ, vᵢ)` pair per index `i < min(rows, cols)` (the trace
of the run); whenever `σᵢ ≤ tolerance` the `i`-th column of `U` is
filled with the `i`-th standard basis vector (the fallback, not a left
singular vector derived from `A`), while row `i` of `VT` still holds the
right singular vector `vᵢ` and `Σ[i][i] = σᵢ`. -/
theorem svd_zero_singular_fallback (sqrtFn : ℚ → ℚ) (seedFn : ℕ → ℕ → ℚ)
    (A : Matrix) (maxIter : ℕ) (tol : ℚ) (U S VT : Matrix)
    (tr : List (ℚ × Matrix))
    (h : SVD.decomposeT sqrtFn seedFn A maxIter tol = .ok (U, S, VT, tr)) :
    tr.length = min A.rows A.cols ∧
    ∀ t, t < tr.length →
      S.entry t t = (tr.getD t (0, ⟨[]⟩)).1 ∧
      (∀ j, j < A.cols → VT.entry t j = (tr.getD t (0, ⟨[]⟩)).2.entry j 0) ∧
      ((tr.getD t (0, ⟨[]⟩)).1 ≤ tol →
        ∀ j, j < A.rows → U.entry j t = if j = t then 1 else 0) := by
  rw [SVD.decomposeT] at h
  simp only [except_bind_ok] at h
  obtain ⟨U₀, hU₀, S₀, hS₀, VT₀, hVT₀, hloop⟩ := h
  obtain ⟨hwfU₀, -, -⟩ := Matrix.zeros_ok_inv hU₀
  obtain ⟨hwfS₀, -, -⟩ := Matrix.zeros_ok_inv hS₀
  obtain ⟨hwfVT₀, -, -⟩ := Matrix.zeros_ok_inv hVT₀
  obtain ⟨-, -, -, hlen, -, -, -, hper⟩ :=
    svdLoop_spec sqrtFn seedFn maxIter tol A.rows A.cols (min A.rows A.cols) 0 A
      U₀ S₀ VT₀ (U, S, VT, tr) hwfU₀ hwfS₀ hwfVT₀ hloop
  refine ⟨hlen, ?_⟩
  intro t ht
  rw [hlen] at ht
  have := hper t ht
  rw [Nat.zero_add] at this
  exact this

/-- C5 witness: on `A = [[1]]` with tolerance `5` the single computed
singular value is `σ₀ = 1 ≤ 5`, so the fallback fires: `U = [[1]]`
(= `e₀`), `VT` holds the right singular vector `[1]`, `Σ = [[1]]`. -/
theorem svd_zero_singular_fallback_witness :
    SVD.decomposeT (fun q => if q = 1 then 1 else 0) (fun _ _ => (1 : ℚ))
        (⟨[[1]]⟩ : Matrix) 100 5 =
      .ok (⟨[[1]]⟩, ⟨[[1]]⟩, ⟨[[1]]⟩, [(1, ⟨[[1]]⟩)]) ∧
    ([((1 : ℚ), (⟨[[1]]⟩ : Matrix))].length =
        min (⟨[[(1 : ℚ)]]⟩ : Matrix).rows (⟨[[(1 : ℚ)]]⟩ : Matrix).cols ∧
      ∀ t, t < [((1 : ℚ), (⟨[[1]]⟩ : Matrix))].length →
        (⟨[[1]]⟩ : Matrix).entry t t =
          ([((1 : ℚ), (⟨[[1]]⟩ : Matrix))].getD t (0, ⟨[]⟩)).1 ∧
        (∀ j, j < (⟨[[(1 : ℚ)]]⟩ : Matrix).cols →
          (⟨[[1]]⟩ : Matrix).entry t j =
            ([((1 : ℚ), (⟨[[1]]⟩ : Matrix))].getD t (0, ⟨[]⟩)).2.entry j 0) ∧
        (([((1 : ℚ), (⟨[[1]]⟩ : Matrix))].getD t (0, ⟨[]⟩)).1 ≤ 5 →
          ∀ j, j < (⟨[[(1 : ℚ)]]⟩ : Matrix).rows →
            (⟨[[1]]⟩ : Matrix).entry j t = if j = t then 1 else 0)) := by
  have hATA : ((⟨[[(1 : ℚ)]]⟩ : Matrix).transpose.multiply ⟨[[1]]⟩ :
      Except Err Matrix) = .ok ⟨[[1]]⟩ := by
    norm_num [Matrix.transpose, Matrix.transposeData, Matrix.multiply, Matrix.mulData,
      Matrix.rows, Matrix.cols, Matrix.entry, List.range_succ]
  have hpl : powerLoop (fun q => if q = 1 then 1 else 0) (⟨[[1]]⟩ : Matrix) 5
      100 0 ⟨[[1]]⟩ 0 0 = .ok (1, ⟨[[1]]⟩, 1, true) := by
    rw [show (100 : ℕ) = 99 + 1 from rfl, powerLoop]
    norm_num [Matrix.multiply, Matrix.mulData, Matrix.rows, Matrix.cols,
      Matrix.entry, List.range_succ]
  have hpi : svdPowerIteration (fun q => if q = 1 then 1 else 0) (⟨[[1]]⟩ : Matrix)
      (fun _ => (1 : ℚ)) 100 5 = .ok ⟨1, ⟨[[1]]⟩⟩ := by
    rw [svdPowerIteration]
    norm_num [Matrix.cols, List.range_succ, hpl]
  have hSset : ((⟨[[(0 : ℚ)]]⟩ : Matrix).set 0 0 1 : Except Err Matrix) =
      .ok ⟨[[1]]⟩ := by
    norm_num [Matrix.set, Matrix.rows, Matrix.cols]
  have hVTfold : ((List.range 1).foldlM (fun M j => do
      let x ← (Matrix.mk [[(1 : ℚ)]]).get j 0
      M.set 0 j x) (⟨[[(0 : ℚ)]]⟩ : Matrix) : Except Err Matrix) = .ok ⟨[[1]]⟩ := by
    norm_num [List.range_succ, List.foldlM, Matrix.get, Matrix.set, Matrix.rows,
      Matrix.cols, Matrix.entry, except_ok_bind]
  have hUfold : ((List.range 1).foldlM (fun M j =>
      M.set j 0 (if j = 0 then (1 : ℚ) else 0)) (⟨[[(0 : ℚ)]]⟩ : Matrix) :
      Except Err Matrix) = .ok ⟨[[1]]⟩ := by
    norm_num [List.range_succ, List.foldlM, Matrix.set, Matrix.rows, Matrix.cols]
  have hloop : svdLoop (fun q => if q = 1 then 1 else 0) (fun _ _ => (1 : ℚ))
      100 5 1 1 1 0 ⟨[[1]]⟩ ⟨[[0]]⟩ ⟨[[0]]⟩ ⟨[[0]]⟩ =
      .ok (⟨[[1]]⟩, ⟨[[1]]⟩, ⟨[[1]]⟩, [(1, ⟨[[1]]⟩)]) := by
    rw [show (1 : ℕ) = 0 + 1 from rfl, svdLoop]
    norm_num [hATA, hpi, hSset, hVTfold, hUfold, except_ok_bind, svdLoop]
  have hdec : SVD.decomposeT (fun q => if q = 1 then 1 else 0) (fun _ _ => (1 : ℚ))
      (⟨[[1]]⟩ : Matrix) 100 5 =
      .ok (⟨[[1]]⟩, ⟨[[1]]⟩, ⟨[[1]]⟩, [(1, ⟨[[1]]⟩)]) := by
    rw [SVD.decomposeT]
    norm_num [Matrix.zeros, Matrix.zerosData, Matrix.rows, Matrix.cols,
      List.range_succ, except_ok_bind, hloop]
  exact ⟨hdec, svd_zero_singular_fallback _ _ _ _ _ _ _ _ _ hdec⟩

/-! ### QR decomposition (claim C9)

Householder QR from `part_005`.  `decompose` builds `Q` (`m × k`
identity) and `R` (first `k` rows of `A`, `k = min(m, n)`), then for
each `j < k` applies a Householder reflection when the diagonal column
has more than one row.  `solve(b)` computes `QᵀB` and runs back
substitution on `R`, whose loops run over all `n = R.cols` columns with
checked reads `b.get(i, k)` and `R.get(i, i)` even though `R` has only
`k` rows.  The raw JS division in back substitution carries no zero
check (JS yields `±Infinity`); in the embedding it is total division on
`ℚ`, which can only differ in runs that pass every bounds check. -/

namespace QR

/-- `_extractColumnFromDiagonal(R, col)`: rows `col..R.rows-1` of column
`col`, revalidated by the constructor (so an empty extraction throws). -/
def extractColumnFromDiagonal (R : Matrix) (col : ℕ) : Except Err Matrix := do
  let columnData ← (List.range' col (R.rows - col)).mapM fun i => do
    let x ← R.get i col
    pure [x]
  Matrix.matrixNew columnData

/-- `_computeSigma(x) = ‖x[1:]‖²` via checked reads. -/
def computeSigma (x : Matrix) : Except Err ℚ := do
  let vals ← (List.range' 1 (x.rows - 1)).mapM fun i => x.get i 0
  pure (vals.map fun v => v * v).sum

/-- `_householderVector(x)`: returns `(v, β)` with
`H = I - β v vᵀ`. -/
def householderVector (sqrtFn : ℚ → ℚ) (x : Matrix) : Except Err (Matrix × ℚ) := do
  let sigma ← computeSigma x
  let x0 ← x.get 0 0
  let normX := sqrtFn (x0 * x0 + sigma)
  let v0 := if 0 ≤ x0 then -(x0 + normX) else x0 - normX
  let v ← Matrix.zeros x.rows 1
  let v ← v.set 0 0 v0
  let v ← (List.range' 1 (x.rows - 1)).foldlM (fun acc i => do
    let xi ← x.get i 0
    acc.set i 0 xi) v
  let beta := if sigma = 0 ∧ v0 = 0 then 0 else 2 / (v0 * v0 + sigma)
  pure (v, beta)

/-- `_applyHouseholderToMatrix(A, v, beta, startCol)`: `A ↦ H·A`
restricted to rows/columns `≥ startCol`; a clone for `β = 0`. -/
def applyHouseholderToMatrix (A v : Matrix) (beta : ℚ) (startCol : ℕ) :
    Except Err Matrix := do
  if beta = 0 then pure A.clone
  else
    let w ← Matrix.zeros A.cols 1
    let w ← (List.range' startCol (A.cols - startCol)).foldlM (fun acc j => do
      let s ← (List.range' startCol (A.rows - startCol)).foldlM (fun sum i => do
        let aij ← A.get i j
        let vi ← v.get (i - startCol) 0
        pure (sum + aij * vi)) (0 : ℚ)
      acc.set j 0 (beta * s)) w
    (List.range' startCol (A.rows - startCol)).foldlM (fun res i =>
      (List.range' startCol (A.cols - startCol)).foldlM (fun res j => do
        let vi ← v.get (i - startCol) 0
        let wj ← w.get j 0
        let aij ← A.get i j
        res.set i j (aij - vi * wj)) res) A.clone

/-- The `for (let j = 0; j < k; j++)` body of `decompose`, fuel `k`. -/
def qrLoop (sqrtFn : ℚ → ℚ) : ℕ → ℕ → Matrix → Matrix →
    Except Err (Matrix × Matrix)
  | 0, _, Q, R => .ok (Q, R)
  | fuel + 1, j, Q, R => do
    let column ← extractColumnFromDiagonal R j
    if 1 < column.rows then
      let vb ← householderVector sqrtFn column
      let R' ← applyHouseholderToMatrix R vb.1 vb.2 j
      let Q' ← applyHouseholderToMatrix Q vb.1 vb.2 j
      qrLoop sqrtFn fuel (j + 1) Q' R'
    else
      qrLoop sqrtFn fuel (j + 1) Q R

/-- `QR.decompose(A)`: the stored `(Q, R)` state on success. -/
def decompose (sqrtFn : ℚ → ℚ) (A : Matrix) : Except Err (Matrix × Matrix) := do
  let Q ← Matrix.matrixNew ((List.range A.rows).map fun i =>
    (List.range (min A.rows A.cols)).map fun j => if i = j then (1 : ℚ) else 0)
  let rData ← (List.range (min A.rows A.cols)).mapM fun i => A.getRow i
  let R ← Matrix.matrixNew rData
  qrLoop sqrtFn (min A.rows A.cols) 0 Q R

/-- `_backSubstitution(R, b)`: `x` is `R.cols × b.cols`; the loops run
`k = b.cols-1 … 0` and `i = n-1 … 0` with `n = R.cols`, reading
`R.get(i, j)`, `x.get(j, k)`, `b.get(i, k)` and `R.get(i, i)` in source
order. -/
def backSubstitution (R b : Matrix) : Except Err Matrix := do
  let x ← Matrix.zeros R.cols b.cols
  (List.range b.cols).reverse.foldlM (fun x k =>
    (List.range R.cols).reverse.foldlM (fun x i => do
      let sum ← (List.range' (i + 1) (R.cols - (i + 1))).foldlM (fun s j => do
        let rij ← R.get i j
        let xjk ← x.get j k
        pure (s + rij * xjk)) (0 : ℚ)
      let bik ← b.get i k
      let rii ← R.get i i
      x.set i k ((bik - sum) / rii)) x) x

/-- `QR.solve(b)` on a decomposed state `(Q, R)`:
`x = backSubstitution(R, Qᵀ·b)`. -/
def solve (st : Matrix × Matrix) (b : Matrix) : Except Err Matrix := do
  let QTb ← st.1.transpose.multiply b
  backSubstitution st.2 QTb

end QR

namespace Matrix

theorem matrixNew_ok_inv {d : List (List ℚ)} {M : Matrix}
    (h : matrixNew d = .ok M) : M.data = d ∧ M.WF := by
  rw [matrixNew] at h
  split at h
  case isTrue => cases h
  case isFalse h1 =>
    split at h
    case isTrue => cases h
    case isFalse h2 =>
      split at h
      case isTrue h3 =>
        cases h
        refine ⟨rfl, ?_, ?_, ?_⟩
        · simpa [List.isEmpty_iff] using h1
        · show 0 < (d.headD []).length
          omega
        · intro r hr
          have := List.all_eq_true.mp h3 r hr
          simpa [Matrix.cols] using this
      case isFalse => cases h

theorem set_ok_preserve {A A' : Matrix} {i j : ℕ} {v : ℚ} (hwf : A.WF)
    (h : A.set i j v = .ok A') : A'.WF ∧ A'.rows = A.rows ∧ A'.cols = A.cols := by
  obtain ⟨hi, hj⟩ := set_ok_bounds h
  obtain ⟨A'', hset, hwf', hr, hc, -⟩ := set_spec hwf hi hj v
  rw [h] at hset
  injection hset with he
  subst he
  exact ⟨hwf', hr, hc⟩

/-- A fallible fold whose step preserves `P` preserves `P` overall. -/
theorem foldlM_preserve {α : Type} (P : Matrix → Prop)
    (f : Matrix → α → Except Err Matrix)
    (hf : ∀ M a M', P M → f M a = .ok M' → P M') :
    ∀ (l : List α) (M M' : Matrix), P M →
      (l.foldlM f M : Except Err Matrix) = .ok M' → P M' := by
  intro l
  induction l with
  | nil =>
    intro M M' hP h
    rw [List.foldlM_nil, except_pure_ok] at h
    subst h
    exact hP
  | cons a l ih =>
    intro M M' hP h
    rw [List.foldlM_cons, except_bind_ok] at h
    obtain ⟨M₁, h1, h2⟩ := h
    exact ih M₁ M' (hf M a M₁ hP h1) h2

/-- Shape of `transpose` for a matrix with at least one column. -/
theorem transpose_dims {A : Matrix} (h : 0 < A.cols) :
    A.transpose.rows = A.cols ∧ A.transpose.cols = A.rows := by
  constructor
  · simp [transpose, transposeData, rows]
  · rcases hc : A.cols with - | c
    · omega
    · have hdata : transposeData A =
          ((List.range A.rows).map fun i => A.entry i 0) ::
            ((List.range c).map Nat.succ).map
              (fun j => (List.range A.rows).map fun i => A.entry i j) := by
        rw [transposeData, hc, List.range_succ_eq_map, List.map_cons]
      show (A.transpose.data.headD []).length = A.rows
      rw [show A.transpose.data = transposeData A from rfl, hdata]
      simp

end Matrix

namespace QR

/-- A successful Householder application preserves well-formedness and
shape. -/
theorem applyHouseholder_preserve {A v : Matrix} {beta : ℚ} {s : ℕ} {A' : Matrix}
    (hwf : A.WF) (h : applyHouseholderToMatrix A v beta s = .ok A') :
    A'.WF ∧ A'.rows = A.rows ∧ A'.cols = A.cols := by
  rw [applyHouseholderToMatrix] at h
  split at h
  case isTrue =>
    rw [except_pure_ok] at h
    subst h
    exact ⟨hwf, rfl, rfl⟩
  case isFalse =>
    simp only [except_bind_ok] at h
    obtain ⟨w₀, -, w, -, hfold⟩ := h
    refine Matrix.foldlM_preserve
      (fun M => M.WF ∧ M.rows = A.rows ∧ M.cols = A.cols) _ ?_ _ A.clone A'
      ⟨hwf, rfl, rfl⟩ hfold
    intro M i M' hP hstep
    refine Matrix.foldlM_preserve
      (fun M => M.WF ∧ M.rows = A.rows ∧ M.cols = A.cols) _ ?_ _ M M' hP hstep
    intro N j N' hPN hstepN
    rw [except_bind_ok] at hstepN
    obtain ⟨vi, -, hstepN⟩ := hstepN
    rw [except_bind_ok] at hstepN
    obtain ⟨wj, -, hstepN⟩ := hstepN
    rw [except_bind_ok] at hstepN
    obtain ⟨aij, -, hset⟩ := hstepN
    obtain ⟨hwfN', hrN', hcN'⟩ := Matrix.set_ok_preserve hPN.1 hset
    exact ⟨hwfN', hrN'.trans hPN.2.1, hcN'.trans hPN.2.2⟩

/-- The decompose loop preserves well-formedness and the shapes of `Q`
and `R`. -/
theorem qrLoop_dims (sqrtFn : ℚ → ℚ) (qr qc rr rc : ℕ) :
    ∀ (fuel j : ℕ) (Q R Q' R' : Matrix),
      Q.WF → Q.rows = qr → Q.cols = qc → R.WF → R.rows = rr → R.cols = rc →
      qrLoop sqrtFn fuel j Q R = .ok (Q', R') →
      Q'.WF ∧ Q'.rows = qr ∧ Q'.cols = qc ∧ R'.WF ∧ R'.rows = rr ∧ R'.cols = rc := by
  intro fuel
  induction fuel with
  | zero =>
    intro j Q R Q' R' h1 h2 h3 h4 h5 h6 h
    rw [qrLoop] at h
    injection h with h'
    rw [Prod.mk.injEq] at h'
    obtain ⟨rfl, rfl⟩ := h'
    exact ⟨h1, h2, h3, h4, h5, h6⟩
  | succ fuel ih =>
    intro j Q R Q' R' h1 h2 h3 h4 h5 h6 h
    rw [qrLoop] at h
    simp only [except_bind_ok] at h
    obtain ⟨col, -, h⟩ := h
    by_cases hc : 1 < col.rows
    · rw [if_pos hc] at h
      simp only [except_bind_ok] at h
      obtain ⟨vb, -, R₁, hR₁, Q₁, hQ₁, hrec⟩ := h
      obtain ⟨hwfR₁, hrR₁, hcR₁⟩ := applyHouseholder_preserve h4 hR₁
      obtain ⟨hwfQ₁, hrQ₁, hcQ₁⟩ := applyHouseholder_preserve h1 hQ₁
      exact ih (j + 1) Q₁ R₁ Q' R' hwfQ₁ (hrQ₁.trans h2) (hcQ₁.trans h3)
        hwfR₁ (hrR₁.trans h5) (hcR₁.trans h6) hrec
    · rw [if_neg hc] at h
      exact ih (j + 1) Q R Q' R' h1 h2 h3 h4 h5 h6 h

/-- A successful `mapM` of `getRow` calls yields one row per index, each
of width `cols`. -/
theorem mapM_getRow_ok {A : Matrix} (hA : A.WF) :
    ∀ (l : List ℕ) (ys : List (List ℚ)),
      (l.mapM fun i => A.getRow i) = .ok ys →
      ys.length = l.length ∧ ∀ y ∈ ys, y.length = A.cols := by
  intro l
  induction l with
  | nil =>
    intro ys h
    rw [List.mapM_nil, except_pure_ok] at h
    subst h
    exact ⟨rfl, by simp⟩
  | cons i l ih =>
    intro ys h
    rw [List.mapM_cons] at h
    simp only [except_bind_ok, except_pure_ok] at h
    obtain ⟨y, hy, ys', hys', hcons⟩ := h
    subst hcons
    obtain ⟨hlen, hall⟩ := ih ys' hys'
    refine ⟨by simp [hlen], ?_⟩
    intro z hz
    rcases List.mem_cons.mp hz with rfl | hz'
    · rw [Matrix.getRow] at hy
      split at hy
      case isTrue hi =>
        injection hy with hy'
        rw [← hy']
        exact hA.row_length hi
      case isFalse => cases hy
    · exact hall z hz'

/-- Shapes of a successful `decompose`: `Q` is `m × k`, `R` is `k × n`
with `k = min(m, n)`, both well-formed. -/
theorem decompose_dims (sqrtFn : ℚ → ℚ) {A Q R : Matrix} (hA : A.WF)
    (h : decompose sqrtFn A = .ok (Q, R)) :
    Q.WF ∧ Q.rows = A.rows ∧ Q.cols = min A.rows A.cols ∧
    R.WF ∧ R.rows = min A.rows A.cols ∧ R.cols = A.cols := by
  rw [decompose] at h
  simp only [except_bind_ok] at h
  obtain ⟨Q₀, hQ₀, rData, hrData, R₀, hR₀, hloop⟩ := h
  obtain ⟨hQdata, hQwf⟩ := Matrix.matrixNew_ok_inv hQ₀
  obtain ⟨hRdata, hRwf⟩ := Matrix.matrixNew_ok_inv hR₀
  obtain ⟨hrlen, hrall⟩ := mapM_getRow_ok hA _ rData hrData
  have hm : 0 < A.rows := hA.rows_pos
  have hn : 0 < A.cols := hA.cols_pos
  have hQr : Q₀.rows = A.rows := by rw [Matrix.rows, hQdata]; simp
  have hQc : Q₀.cols = min A.rows A.cols := by
    rw [Matrix.cols, hQdata]
    rcases hm' : A.rows with - | m
    · omega
    · simp [List.range_succ_eq_map]
  have hRr : R₀.rows = min A.rows A.cols := by
    rw [Matrix.rows, hRdata, hrlen]
    simp
  have hRc : R₀.cols = A.cols := by
    rw [Matrix.cols, hRdata]
    rcases hd : rData with - | ⟨y, ys⟩
    · rw [hd, List.length_nil, List.length_range] at hrlen
      omega
    · simp only [List.headD_cons]
      exact hrall y (by rw [hd]; simp)
  exact qrLoop_dims sqrtFn A.rows (min A.rows A.cols) (min A.rows A.cols) A.cols
    (min A.rows A.cols) 0 Q₀ R₀ Q R hQwf hQr hQc hRwf hRr hRc hloop

end QR

/-- A fallible fold whose first step fails propagates that error. -/
theorem foldlM_head_error {α β : Type} {f : β → α → Except Err β} {a : α}
    {l : List α} {M : β} {e : Err} (h : f M a = .error e) :
    ((a :: l).foldlM f M : Except Err β) = .error e := by
  rw [List.foldlM_cons, h, except_error_bind]

/-- Back substitution on `R` immediately dereferences `b.get(n-1, k)`
with `n = R.cols`; when `b` has fewer than `n` rows this first read is
out of bounds. -/
theorem backSubstitution_short_b {R bb : Matrix} (hn : 0 < R.cols)
    (hbr : bb.rows < R.cols) (hbc : 0 < bb.cols) :
    QR.backSubstitution R bb = .error .indexOutOfBounds := by
  rw [QR.backSubstitution]
  have hz : Matrix.zeros R.cols bb.cols =
      .ok ⟨Matrix.zerosData R.cols bb.cols⟩ := by
    rw [Matrix.zeros, if_neg]
    push_neg
    exact ⟨by omega, by omega⟩
  rw [hz, except_ok_bind]
  obtain ⟨p, hp⟩ : ∃ p, bb.cols = p + 1 := ⟨bb.cols - 1, by omega⟩
  obtain ⟨q, hq⟩ : ∃ q, R.cols = q + 1 := ⟨R.cols - 1, by omega⟩
  rw [hp, hq]
  have hrevp : (List.range (p + 1)).reverse = p :: (List.range p).reverse := by
    rw [List.range_succ]
    simp
  have hrevq : (List.range (q + 1)).reverse = q :: (List.range q).reverse := by
    rw [List.range_succ]
    simp
  rw [hrevp]
  apply foldlM_head_error
  rw [hrevq]
  apply foldlM_head_error
  show ((List.range' (q + 1) (q + 1 - (q + 1))).foldlM _ (0 : ℚ) >>= _) =
    .error .indexOutOfBounds
  rw [Nat.sub_self, List.range'_zero, List.foldlM_nil, pure_bind]
  rw [Matrix.get, if_neg (fun hcon => by omega), except_error_bind]

/-- C9: for every well-formed matrix `A` with more columns than rows,
after a successful `QR.decompose(A)` every `QR.solve(b)` call (with the
matching `b.rows = A.rows` and at least one right-hand side column)
raises `IndexOutOfBounds`: back substitution iterates over all
`R.cols = n` columns and reads `b.get(i, k)` and `R.get(i, i)` for
`i` up to `n - 1`, while `QᵀB` and `R` have only `min(rows, cols)`
rows. -/
theorem qr_solve_wide_index_out_of_bounds (sqrtFn : ℚ → ℚ) (A b Q R : Matrix)
    (hA : A.WF) (hwide : A.rows < A.cols)
    (hdec : QR.decompose sqrtFn A = .ok (Q, R))
    (hb : b.rows = A.rows) (hbc : 0 < b.cols) :
    QR.solve (Q, R) b = .error .indexOutOfBounds := by
  obtain ⟨hQwf, hQr, hQc, hRwf, hRr, hRc⟩ := QR.decompose_dims sqrtFn hA hdec
  have hm : 0 < A.rows := hA.rows_pos
  have hmin : min A.rows A.cols = A.rows := by omega
  rw [hmin] at hQc hRr
  have hQcpos : 0 < Q.cols := by omega
  obtain ⟨hTr, hTc⟩ := Matrix.transpose_dims hQcpos
  have hmul : (Q.transpose.multiply b : Except Err Matrix) =
      .ok ⟨Matrix.mulData Q.transpose b⟩ := by
    rw [Matrix.multiply, if_pos (by omega)]
  have hQTr : (⟨Matrix.mulData Q.transpose b⟩ : Matrix).rows = A.rows := by
    show (Matrix.mulData Q.transpose b).length = A.rows
    rw [Matrix.mulData]
    simp only [List.length_map, List.length_range]
    omega
  have hQTc : (⟨Matrix.mulData Q.transpose b⟩ : Matrix).cols = b.cols := by
    show ((Matrix.mulData Q.transpose b).headD []).length = b.cols
    rw [Matrix.mulData]
    have hT1 : Q.transpose.rows = (A.rows - 1) + 1 := by omega
    rw [hT1, List.range_succ_eq_map, List.map_cons]
    simp
  show (Q.transpose.multiply b >>= fun QTb => QR.backSubstitution R QTb) =
    .error .indexOutOfBounds
  rw [hmul, except_ok_bind]
  exact backSubstitution_short_b (by omega) (by omega) (by omega)

/-- C9 witness: `A = [[1, 2]]` (1×2, wider than tall) decomposes into
`Q = [[1]]`, `R = [[1, 2]]`; solving with `b = [[1]]` raises
`IndexOutOfBounds`. -/
theorem qr_solve_wide_index_out_of_bounds_witness :
    (⟨[[(1 : ℚ), 2]]⟩ : Matrix).WF ∧
    (⟨[[(1 : ℚ), 2]]⟩ : Matrix).rows < (⟨[[(1 : ℚ), 2]]⟩ : Matrix).cols ∧
    QR.decompose (fun q => q) ⟨[[1, 2]]⟩ = .ok (⟨[[1]]⟩, ⟨[[1, 2]]⟩) ∧
    (⟨[[(1 : ℚ)]]⟩ : Matrix).rows = (⟨[[(1 : ℚ), 2]]⟩ : Matrix).rows ∧
    0 < (⟨[[(1 : ℚ)]]⟩ : Matrix).cols ∧
    QR.solve (⟨[[1]]⟩, ⟨[[1, 2]]⟩) ⟨[[1]]⟩ = .error .indexOutOfBounds := by
  have hwf : (⟨[[(1 : ℚ), 2]]⟩ : Matrix).WF := by
    refine ⟨by simp, by norm_num [Matrix.cols], ?_⟩
    intro r hr
    simp only [List.mem_singleton] at hr
    subst hr
    norm_num [Matrix.cols]
  have hext : QR.extractColumnFromDiagonal ⟨[[(1 : ℚ), 2]]⟩ 0 = .ok ⟨[[1]]⟩ := by
    rw [QR.extractColumnFromDiagonal]
    norm_num [Matrix.rows, Matrix.cols, Matrix.get, Matrix.entry, Matrix.matrixNew,
      List.range'_one, List.mapM.loop, except_ok_bind]
  have hloop : QR.qrLoop (fun q => q) 1 0 ⟨[[1]]⟩ ⟨[[(1 : ℚ), 2]]⟩ =
      .ok (⟨[[1]]⟩, ⟨[[1, 2]]⟩) := by
    rw [show (1 : ℕ) = 0 + 1 from rfl, QR.qrLoop]
    norm_num [hext, except_ok_bind, Matrix.rows, QR.qrLoop]
  have hdec : QR.decompose (fun q => q) ⟨[[(1 : ℚ), 2]]⟩ =
      .ok (⟨[[1]]⟩, ⟨[[1, 2]]⟩) := by
    rw [QR.decompose]
    norm_num [Matrix.matrixNew, Matrix.getRow, Matrix.rows, Matrix.cols,
      List.range_succ, List.mapM.loop, except_ok_bind, hloop]
    rw [if_neg (show ¬([(1 : ℚ), 2] = []) by simp), except_ok_bind, hloop]
  refine ⟨hwf, by norm_num [Matrix.rows, Matrix.cols], hdec, rfl,
    by norm_num [Matrix.cols], ?_⟩
  exact qr_solve_wide_index_out_of_bounds (fun q => q) ⟨[[1, 2]]⟩ ⟨[[1]]⟩
    ⟨[[1]]⟩ ⟨[[1, 2]]⟩ hwf (by norm_num [Matrix.rows, Matrix.cols]) hdec rfl
    (by norm_num [Matrix.cols])

end LinAlgebraPro
